import Mathlib

/-!
Verification development for the embedding-based analysis component of the
LEGAL_DESTROYER repository: near-duplicate clustering via union-find
(`scripts/analyze_vector_store.py`, `_find_duplicate_clusters`), polarity
scoring and contradiction detection (`scripts/analyze_exhibit_evidence.py`,
`_polarity_sign` / `_find_contradictions`; `scripts/build_inconsistency_visuals.py`,
`_polarity_counts` / `_polarity_sign` / `_build_contradictions`), and top-k
similarity queries (`scripts/query_vector_store.py`, `query_embeddings`).

Modelling conventions: Python strings are `List Char` and `str.lower` is
`Char.toLower` mapped over the list; numpy float arithmetic is modelled by exact
rational arithmetic (`ℚ`); a numpy embedding matrix is a `List (List ℚ)` of its
rows; Python exceptions are modelled with `Except`.  `np.argsort` (default
kind) guarantees only a permutation of the indices arranged in sorted key
order, with the order of equal keys unspecified; that contract is the
predicate `IsDescOrder` (for argsort on negated scores), and results that are
proved for every order satisfying it hold of every admissible numpy
behaviour.  The function `argsortDesc` picks one admissible output (the
stable, ascending-ties one) and is used only where the proved result does not
depend on the tie order.
-/

/-- Whitespace test matching Python's regex class backslash-s on ASCII text
(space, tab, newline, carriage return, vertical tab, form feed). -/
def pyWs (c : Char) : Bool :=
  c = ' ' || c = '\t' || c = '\n' || c = '\r' || c = '\x0b' || c = '\x0c'

/-- Boolean list-prefix test (`t` is a prefix of `s`). -/
def prefOf : List Char → List Char → Bool
  | [], _ => true
  | _ :: _, [] => false
  | a :: as, b :: bs => a = b && prefOf as bs

/-- Number of positions of `s` at which `t` occurs as a substring, counting
overlapping occurrences.  (Starting positions `0, 1, ...`; the occurrence of the
empty string at the very end of `s` is not counted by this recursion.) -/
def occCountAux (t : List Char) : List Char → ℕ
  | [] => 0
  | c :: cs => (if prefOf t (c :: cs) then 1 else 0) + occCountAux t cs

/-- Fuelled scanner for Python `str.count` on a nonempty pattern: scan left to
right, count an occurrence and resume after its end (non-overlapping count).
Each step consumes at least one character, so fuel `length s` is exact. -/
def pyCountF (t : List Char) : ℕ → List Char → ℕ
  | 0, _ => 0
  | _ + 1, [] => 0
  | fuel + 1, c :: cs =>
    if prefOf t (c :: cs) then 1 + pyCountF t fuel (List.drop (t.length - 1) cs)
    else pyCountF t fuel cs

/-- Python `str.count` on a nonempty pattern. -/
def pyCountAux (t s : List Char) : ℕ :=
  pyCountF t s.length s

/-- Python `in` on strings: substring containment. -/
def hasSub (t : List Char) : List Char → Bool
  | [] => prefOf t []
  | c :: cs => prefOf t (c :: cs) || hasSub t cs

/-- Python `str.lower`, restricted to the ASCII case mapping. -/
def lowerL (s : List Char) : List Char :=
  s.map Char.toLower

/-- Dot product of two rows, `numpy`-style over the common length prefix
(rows in the source always share one dimension). -/
def dot (u v : List ℚ) : ℚ :=
  (List.zipWith (fun a b => a * b) u v).sum

/-- Stable insertion of `x` into a list: `x` is placed before the first element
`y` with `ge x y = false`, i.e. before every strictly smaller element and after
nothing it ties with that was inserted later. -/
def insGE {α : Type} (ge : α → α → Bool) (x : α) : List α → List α
  | [] => [x]
  | y :: ys => if ge x y then x :: y :: ys else y :: insGE ge x ys

/-- Stable sort putting larger elements first; models Python's stable
`list.sort(key=..., reverse=True)` and, on an ascending index list, the stable
descending argsort. -/
def sortGE {α : Type} (ge : α → α → Bool) : List α → List α
  | [] => []
  | x :: xs => insGE ge x (sortGE ge xs)

/-- One admissible output of `np.argsort` on negated scores: the indices of
`xs` in descending value order with ties at ascending index.  numpy leaves the
tie order of the default sort kind unspecified (`IsDescOrder` is the faithful
contract), so this fixed choice is used only where the result proved about it
does not depend on the tie order. -/
def argsortDesc (xs : List ℚ) : List ℕ :=
  sortGE (fun a b => decide (xs.getD b 0 ≤ xs.getD a 0)) (List.range xs.length)

/-- Negation vocabulary `NEGATION_TERMS` shared by `analyze_exhibit_evidence.py`
and `build_inconsistency_visuals.py`. -/
def NEGATION_TERMS : List (List Char) :=
  ["no ".data, "not ".data, "never".data, "denied".data, "without".data,
   "lack".data, "failed".data, "refused".data, "cannot".data, "void".data]

/-- Affirmation vocabulary `AFFIRM_TERMS` shared by `analyze_exhibit_evidence.py`
and `build_inconsistency_visuals.py`. -/
def AFFIRM_TERMS : List (List Char) :=
  ["granted".data, "ordered".data, "finds".data, "concludes".data,
   "determines".data, "approved".data, "sustained".data, "affirmed".data]

/-- Polarity sign `_polarity_sign(text, min_hits)` from
`analyze_exhibit_evidence.py`: counts (Python `str.count`) of the affirmation
and negation terms in the lowercased text; `+1` when `pos - neg >= min_hits`,
`-1` when `pos - neg <= -min_hits`, else `0`. -/
def polaritySign (text : List Char) (minHits : ℤ) : ℤ :=
  let textLower := lowerL text
  let pos : ℤ := (AFFIRM_TERMS.map (fun t => (pyCountAux t textLower : ℤ))).sum
  let neg : ℤ := (NEGATION_TERMS.map (fun t => (pyCountAux t textLower : ℤ))).sum
  let score := pos - neg
  if minHits ≤ score then 1
  else if score ≤ -minHits then -1
  else 0

/-- Polarity counts `_polarity_counts(text)` from
`build_inconsistency_visuals.py`: the `(pos, neg)` pair of term counts over the
lowercased text. -/
def polarityCounts (text : List Char) : ℕ × ℕ :=
  let textLower := lowerL text
  let neg := (NEGATION_TERMS.map (fun t => pyCountAux t textLower)).sum
  let pos := (AFFIRM_TERMS.map (fun t => pyCountAux t textLower)).sum
  (pos, neg)

/-- Sign step `_polarity_sign(pos, neg, min_hits)` from
`build_inconsistency_visuals.py`. -/
def polaritySignB (pos neg : ℕ) (minHits : ℤ) : ℤ :=
  let score : ℤ := (pos : ℤ) - (neg : ℤ)
  if minHits ≤ score then 1
  else if score ≤ -minHits then -1
  else 0

/-- Occurrence-count score following the claim's words: `pos` and `neg` as
total counts of case-insensitive substring occurrences (all starting positions,
overlapping occurrences included) of the fixed term lists. -/
def occScoreSpec (text : List Char) : ℤ :=
  let textLower := lowerL text
  ((AFFIRM_TERMS.map (fun t => (occCountAux t textLower : ℤ))).sum) -
    ((NEGATION_TERMS.map (fun t => (occCountAux t textLower : ℤ))).sum)

/-- Polarity sign following the claim's words (occurrence counts rather than
Python's non-overlapping `str.count`); used only to compare the spec's reading
against the source's `_polarity_sign`. -/
def polaritySignOccSpec (text : List Char) (minHits : ℤ) : ℤ :=
  if minHits ≤ occScoreSpec text then 1
  else if occScoreSpec text ≤ -minHits then -1
  else 0

/-- Parent-pointer step of the union-find parent list: `parent[x]`, with
out-of-range indices read as themselves (the source only ever indexes in
range). -/
def pstep (p : List ℕ) (x : ℕ) : ℕ :=
  p.getD x x

/-- Root of `x` in the parent forest: follow parent pointers `length p` times
(enough to reach the self-parented root of any acyclic in-range forest). -/
def rootOf (p : List ℕ) (x : ℕ) : ℕ :=
  (pstep p)^[p.length] x

/-- Number of parent steps from `x` to the first self-parented node, capped by
the available fuel. -/
def stepsTo (p : List ℕ) : ℕ → ℕ → ℕ
  | 0, _ => 0
  | fuel + 1, x => if pstep p x = x then 0 else stepsTo p fuel (pstep p x) + 1

/-- Height of `x` in the parent forest (steps to its root), with fuel
`length p`. -/
def hgt (p : List ℕ) (x : ℕ) : ℕ :=
  stepsTo p p.length x

/-- Well-formedness of a union-find parent list: in-range parents, and from
every node `length p` parent steps reach a self-parented root (the forest is
acyclic). -/
def Wf (p : List ℕ) : Prop :=
  (∀ i, i < p.length → pstep p i < p.length) ∧
    ∀ x, pstep p (rootOf p x) = rootOf p x

/-- Fuelled body of the `find` while loop of `_find_duplicate_clusters`
(path halving): while `parent[x] != x`, set `parent[x] = parent[parent[x]]` and
move `x` to the new `parent[x]`.  Returns the final `x` and the mutated parent
list. -/
def findAux : ℕ → List ℕ → ℕ → ℕ × List ℕ
  | 0, p, x => (x, p)
  | fuel + 1, p, x =>
    if pstep p x = x then (x, p)
    else
      let p' := p.set x (pstep p (pstep p x))
      findAux fuel p' (pstep p' x)

/-- The `find` of `_find_duplicate_clusters`, with fuel `length p` (sufficient
for every well-formed parent list, as proved below). -/
def find (p : List ℕ) (x : ℕ) : ℕ × List ℕ :=
  findAux p.length p x

/-- The `union` of `_find_duplicate_clusters`: `ra, rb = find(a), find(b)`;
if `ra != rb` then `parent[rb] = ra`. -/
def union (p : List ℕ) (a b : ℕ) : List ℕ :=
  let fa := find p a
  let fb := find fa.2 b
  if fa.1 ≠ fb.1 then fb.2.set fb.1 fa.1 else fb.2

/-- Similarity matrix entry after `np.fill_diagonal(sims, 0.0)`: the dot
product of rows `i` and `j`, with the diagonal zeroed. -/
def simMat (E : List (List ℚ)) (i j : ℕ) : ℚ :=
  if i = j then 0 else dot (E.getD i []) (E.getD j [])

/-- Row-major list of index pairs `np.argwhere(sims >= threshold)`. -/
def pairsList (E : List (List ℚ)) (t : ℚ) : List (ℕ × ℕ) :=
  (List.range E.length).flatMap fun i =>
    (List.range E.length).filterMap fun j =>
      if t ≤ simMat E i j then some (i, j) else none

/-- One iteration of the pair loop: `if i >= j: continue` else `union(i, j)`. -/
def unionStep (p : List ℕ) (ij : ℕ × ℕ) : List ℕ :=
  if ij.2 ≤ ij.1 then p else union p ij.1 ij.2

/-- The full pair loop of `_find_duplicate_clusters`. -/
def processPairs (L : List (ℕ × ℕ)) (p : List ℕ) : List ℕ :=
  L.foldl unionStep p

/-- Python `clusters.setdefault(root, []).append(idx)` on an insertion-ordered
association list. -/
def addToGroup : List (ℕ × List ℕ) → ℕ → ℕ → List (ℕ × List ℕ)
  | [], r, idx => [(r, [idx])]
  | e :: rest, r, idx =>
    if e.1 = r then (e.1, e.2 ++ [idx]) :: rest else e :: addToGroup rest r idx

/-- One iteration of the grouping loop: `root = find(idx)` (mutating the parent
list) and append `idx` to the group of `root`. -/
def groupStep (st : List ℕ × List (ℕ × List ℕ)) (idx : ℕ) :
    List ℕ × List (ℕ × List ℕ) :=
  let fr := find st.1 idx
  (fr.2, addToGroup st.2 fr.1 idx)

/-- The `_find_duplicate_clusters(embeddings, threshold)` function of
`analyze_vector_store.py`: pairwise similarities with zeroed diagonal, union of
every in-order pair `i < j` with `sims[i][j] >= threshold`, grouping of
`range(len(embeddings))` by root, groups of size one discarded, result sorted
by size descending (Python's stable sort). -/
def findDuplicateClusters (E : List (List ℚ)) (t : ℚ) : List (List ℕ) :=
  let p := processPairs (pairsList E t) (List.range E.length)
  let grouped := (List.range E.length).foldl groupStep (p, [])
  sortGE (fun a b => decide (b.length ≤ a.length))
    ((grouped.2.map Prod.snd).filter fun m => 1 < m.length)

/-- Adjacency of the duplicate graph on chunk indices: distinct in-range rows
whose dot product reaches the threshold. -/
def Adj (E : List (List ℚ)) (t : ℚ) (a b : ℕ) : Prop :=
  a < E.length ∧ b < E.length ∧ a ≠ b ∧ t ≤ dot (E.getD a []) (E.getD b [])

/-- Connectivity in the duplicate graph: the equivalence closure of `Adj`. -/
def Conn (E : List (List ℚ)) (t : ℚ) : ℕ → ℕ → Prop :=
  Relation.EqvGen (Adj E t)

/-- Parent lists reachable from the identity parent array by `union` calls on
valid indices (the only way `_find_duplicate_clusters` ever touches the
array). -/
inductive ReachesUF (n : ℕ) : List ℕ → Prop
  | init : ReachesUF n (List.range n)
  | step (p : List ℕ) (a b : ℕ) (ha : a < n) (hb : b < n) :
      ReachesUF n p → ReachesUF n (union p a b)

/-- Metadata record of a vector store (`metadata.jsonl` line), restricted to
the fields the analysed functions read. -/
structure MRec where
  source_pdf : List Char
  text : List Char
  chunk_index : ℕ
deriving DecidableEq, Inhabited

/-- Contradiction edge dictionary appended by `_find_contradictions` of
`analyze_exhibit_evidence.py`. -/
structure CEdge where
  similarity : ℚ
  exhibit_source : List Char
  filing_source : List Char
  exhibit_chunk : ℕ
  filing_chunk : ℕ
  exhibit_snippet : List Char
  filing_snippet : List Char
  exhibit_polarity : ℤ
  filing_polarity : ℤ
deriving DecidableEq

/-- Fuelled collapsing of whitespace runs into single spaces (Python regex
substitution of a whitespace run by one space); each step consumes at least one
character, so fuel `length s` is exact. -/
def squashWsF : ℕ → List Char → List Char
  | 0, _ => []
  | _ + 1, [] => []
  | fuel + 1, c :: cs =>
    if pyWs c then ' ' :: squashWsF fuel (cs.dropWhile pyWs)
    else c :: squashWsF fuel cs

/-- Python regex substitution of whitespace runs by a single space. -/
def squashWs (s : List Char) : List Char :=
  squashWsF s.length s

/-- Python `str.rstrip` on whitespace. -/
def rstripWs (s : List Char) : List Char :=
  (s.reverse.dropWhile pyWs).reverse

/-- Normalised whitespace `_normalize_ws`: collapse whitespace runs to single
spaces, then strip both ends. -/
def normalizeWsL (s : List Char) : List Char :=
  rstripWs ((squashWs s).dropWhile pyWs)

/-- Snippet `_snippet(text, max_len)` of `analyze_exhibit_evidence.py`. -/
def pySnippet (s : List Char) (maxLen : ℕ) : List Char :=
  let cleaned := normalizeWsL s
  if cleaned.length ≤ maxLen then cleaned
  else rstripWs (cleaned.take (maxLen - 3)) ++ "...".data

/-- Alternatives of the `FILING_INCLUDE` regex (an alternation of literals,
matched case-insensitively). -/
def FILING_INCLUDE_TERMS : List (List Char) :=
  ["petition".data, "application for protective order".data,
   "statement of inability".data]

/-- Alternatives of the `FILING_EXCLUDE` regex. -/
def FILING_EXCLUDE_TERMS : List (List Char) :=
  ["respondent".data, "response".data, "objection".data,
   "temporary orders".data, "ex parte".data, "exhibit".data]

/-- Case-insensitive search of an alternation-of-literals regex. -/
def regexAnyCI (terms : List (List Char)) (s : List Char) : Bool :=
  terms.any fun t => hasSub t (lowerL s)

/-- The `exhibit_indices` comprehension of `_find_contradictions`. -/
def exhibitIndices (records : List MRec) : List ℕ :=
  (List.range records.length).filter fun i =>
    hasSub ("exhibit".data) (lowerL (records.getD i default).source_pdf)

/-- The `filing_indices` comprehension of `_find_contradictions`. -/
def filingIndices (records : List MRec) : List ℕ :=
  (List.range records.length).filter fun i =>
    regexAnyCI FILING_INCLUDE_TERMS (records.getD i default).source_pdf &&
      !regexAnyCI FILING_EXCLUDE_TERMS (records.getD i default).source_pdf

/-- Round-half-to-even of a rational to an integer (the rounding Python's
`round` performs, modelled in exact arithmetic). -/
def roundHalfEven (q : ℚ) : ℤ :=
  let f := ⌊q⌋
  let r := q - (f : ℚ)
  if r < 1 / 2 then f
  else if 1 / 2 < r then f + 1
  else if 2 ∣ f then f else f + 1

/-- Python `round(x, 4)` in the exact-rational model. -/
def pyRound4 (q : ℚ) : ℚ :=
  ((roundHalfEven (q * 10000) : ℤ) : ℚ) / 10000

/-- Similarity row of one exhibit chunk against every filing chunk
(`sims[i]` in `_find_contradictions`). -/
def contraScores (E : List (List ℚ)) (filIdx : List ℕ) (ei : ℕ) : List ℚ :=
  filIdx.map fun fj => dot (E.getD ei []) (E.getD fj [])

/-- Body of the inner loop of `_find_contradictions`: for a ranked filing
position, keep the pair only if the filing polarity is nonzero and of strictly
opposite sign and the similarity reaches the threshold. -/
def contraPick (records : List MRec) (filIdx : List ℕ) (scores : List ℚ)
    (similarityThreshold : ℚ) (minPolarityHits : ℤ) (exRec : MRec)
    (exSign : ℤ) (pos : ℕ) : Option CEdge :=
  let fj := filIdx.getD pos 0
  let filRec := records.getD fj default
  let filSign := polaritySign filRec.text minPolarityHits
  if filSign = 0 ∨ 0 ≤ exSign * filSign then none
  else
    let score := scores.getD pos 0
    if score < similarityThreshold then none
    else some
      { similarity := pyRound4 score
        exhibit_source := exRec.source_pdf
        filing_source := filRec.source_pdf
        exhibit_chunk := exRec.chunk_index
        filing_chunk := filRec.chunk_index
        exhibit_snippet := pySnippet exRec.text 260
        filing_snippet := pySnippet filRec.text 260
        exhibit_polarity := exSign
        filing_polarity := filSign }

/-- Outer-loop body of `_find_contradictions` for one exhibit index: skip
exhibits of polarity zero, rank the filing chunks by similarity, and keep the
qualifying opposite-polarity pairs among the top `top_k`. -/
def contraRow (E : List (List ℚ)) (records : List MRec)
    (similarityThreshold : ℚ) (minPolarityHits : ℤ) (topK : ℕ)
    (filIdx : List ℕ) (ei : ℕ) : List CEdge :=
  let exRec := records.getD ei default
  let exSign := polaritySign exRec.text minPolarityHits
  if exSign = 0 then []
  else
    let scores := contraScores E filIdx ei
    ((argsortDesc scores).take topK).filterMap
      (contraPick records filIdx scores similarityThreshold minPolarityHits
        exRec exSign)

/-- The `_find_contradictions(embeddings, records, ...)` function of
`analyze_exhibit_evidence.py`: for each exhibit chunk of nonzero polarity, rank
filing chunks by similarity, keep the top `top_k` whose polarity is nonzero and
of strictly opposite sign and whose similarity reaches the threshold, and sort
all edges by similarity descending. -/
def findContradictions (E : List (List ℚ)) (records : List MRec)
    (similarityThreshold : ℚ) (minPolarityHits : ℤ) (topK : ℕ) : List CEdge :=
  let exIdx := exhibitIndices records
  let filIdx := filingIndices records
  if exIdx.isEmpty || filIdx.isEmpty then []
  else
    sortGE (fun a b => decide (b.similarity ≤ a.similarity))
      (exIdx.flatMap
        (contraRow E records similarityThreshold minPolarityHits topK filIdx))

/-- The edge-construction loop of `_build_contradictions` of
`build_inconsistency_visuals.py` (lines 661-676), over the selected candidate
positions: for every pair `i < j` of candidates with different document labels,
both signs nonzero and not of equal sign, and similarity at least the
threshold, emit `(i, j, score)`; sort by score descending and truncate to
`max_edges`. -/
def buildEdges (nC : ℕ) (signs : ℕ → ℤ) (label : ℕ → List Char)
    (simf : ℕ → ℕ → ℚ) (similarityThreshold : ℚ) (maxEdges : ℕ) :
    List (ℕ × ℕ × ℚ) :=
  let edges := (List.range nC).flatMap fun i =>
    (List.range nC).filterMap fun j =>
      if j ≤ i then none
      else if label i = label j then none
      else if signs i = 0 ∨ signs j = 0 then none
      else if 0 < signs i * signs j then none
      else
        let score := simf i j
        if score < similarityThreshold then none
        else some (i, j, score)
  (sortGE (fun a b => decide (b.2.2 ≤ a.2.2)) edges).take maxEdges

/-- Scores of one query against every stored embedding row
(`scores = embeddings @ qvec` in `query_embeddings`). -/
def queryScores (E : List (List ℚ)) (q : List ℚ) : List ℚ :=
  E.map fun row => dot row q

/-- The dedupe key of one record in `query_embeddings`:
`source_pdf if dedupe else f"{source_pdf}:{chunk_index}"`. -/
def queryKey (metadata : List MRec) (dedupe : Bool) (r : ℕ) : List Char :=
  let record := metadata.getD r default
  if dedupe then record.source_pdf
  else record.source_pdf ++ ':' :: (toString record.chunk_index).data

/-- The emission loop of `query_embeddings` of `query_vector_store.py` over the
ranked order: skip records whose dedupe key was seen (when deduping), emit
`(index, score)`, stop once `top_k` records have been written. -/
def queryLoop (metadata : List MRec) (scores : List ℚ) (dedupe : Bool)
    (topK : ℕ) : List ℕ → List (List Char) → ℕ → List (ℕ × ℚ)
  | [], _, _ => []
  | r :: rest, seen, count =>
    if dedupe && decide (queryKey metadata dedupe r ∈ seen) then
      queryLoop metadata scores dedupe topK rest seen count
    else if topK ≤ count + 1 then [(r, scores.getD r 0)]
    else (r, scores.getD r 0) ::
      queryLoop metadata scores dedupe topK rest
        (queryKey metadata dedupe r :: seen) (count + 1)

/-- The contract of `order = np.argsort(-scores)` in `query_embeddings`: the
result is some permutation of the indices arranged in non-increasing score
order.  numpy does not specify the relative order of equal keys for the
default sort kind, so any order satisfying this predicate is an admissible
ranking. -/
def IsDescOrder (scores : List ℚ) (order : List ℕ) : Prop :=
  order.Perm (List.range scores.length) ∧
    order.Pairwise (fun a b => scores.getD b 0 ≤ scores.getD a 0)

/-- Pure content of `_load_store` of `analyze_vector_store.py`: the embeddings
array and metadata records are returned as loaded, with no validation of any
kind (there is no error path besides file I/O, which is out of scope). -/
def loadStoreA (e : List (List ℚ)) (records : List MRec) :
    Except (List Char) (List (List ℚ) × List MRec) :=
  Except.ok (e, records)

/-- The size check of `main` in `query_vector_store.py`:
`if embeddings.shape[0] != len(metadata): raise SystemExit(...)`, performed
before `query_embeddings` is called. -/
def checkStoreSizes (e : List (List ℚ)) (records : List MRec) :
    Except (List Char) Unit :=
  if e.length ≠ records.length then
    Except.error ("Embeddings/metadata size mismatch.".data)
  else Except.ok ()

/-- The per-store size check of `merge_vector_stores` in
`vectorize_case_docs.py` (line 258): while loading each store to merge,
`if embeddings.shape[0] != len(records): raise ValueError(f"Embeddings and
metadata length mismatch for {store_path}")`. -/
def checkMergeSizes (storePath : List Char) (e : List (List ℚ))
    (records : List MRec) : Except (List Char) Unit :=
  if e.length ≠ records.length then
    Except.error (("Embeddings and metadata length mismatch for ".data)
      ++ storePath)
  else Except.ok ()

/-- Symmetric edge relation induced by a processed pair list: the pairs the
union loop actually unions (those with first component less than second). -/
def pairRel (L : List (ℕ × ℕ)) (a b : ℕ) : Prop :=
  ((a, b) ∈ L ∧ a < b) ∨ ((b, a) ∈ L ∧ b < a)

/-- Root property of a union-find node. -/
def IsRoot (p : List ℕ) (x : ℕ) : Prop :=
  pstep p x = x

/-- Absence of a nontrivial border: no proper nonempty prefix of `t` is also a
suffix of `t`.  For such patterns, occurrences cannot overlap, so Python's
non-overlapping `str.count` counts every occurrence. -/
def borderlessT (t : List Char) : Prop :=
  ∀ k, k < t.length → 0 < k → t.take k ≠ t.drop (t.length - k)

instance (t : List Char) : Decidable (borderlessT t) := by
  unfold borderlessT
  infer_instance

/-- Example two-chunk store exercising `_find_contradictions`: one exhibit
chunk of affirmative polarity and one filing chunk of negative polarity. -/
def c2Recs : List MRec :=
  [⟨"Exhibit_A.pdf".data, "granted granted".data, 0⟩,
   ⟨"petition.pdf".data, "denied denied".data, 1⟩]

/-- The single contradiction edge produced on `c2Recs` with identical
embeddings `[[1], [1]]`, threshold `1/2`, `min_hits = 2`. -/
def c2Edge : CEdge :=
  { similarity := 1
    exhibit_source := "Exhibit_A.pdf".data
    filing_source := "petition.pdf".data
    exhibit_chunk := 0
    filing_chunk := 1
    exhibit_snippet := pySnippet ("granted granted".data) 260
    filing_snippet := pySnippet ("denied denied".data) 260
    exhibit_polarity := 1
    filing_polarity := -1 }

/-- Example polarity signs for the `_build_contradictions` edge loop. -/
def c2Signs : ℕ → ℤ := fun i => if i = 0 then 1 else -1

/-- Example document labels for the `_build_contradictions` edge loop. -/
def c2Label : ℕ → List Char := fun i => if i = 0 then ("a".data) else ("b".data)

/-- Example similarity function for the `_build_contradictions` edge loop. -/
def c2Simf : ℕ → ℕ → ℚ := fun _ _ => 1

section SortLemmas

variable {α : Type}

lemma insGE_perm (ge : α → α → Bool) (x : α) (l : List α) :
    List.Perm (insGE ge x l) (x :: l) := by
  induction l with
  | nil => simp [insGE]
  | cons y ys ih =>
    simp only [insGE]
    by_cases h : ge x y
    · simp [h]
    · simp only [h, if_neg]
      exact (List.Perm.cons y ih).trans (List.Perm.swap x y ys)

lemma sortGE_perm (ge : α → α → Bool) (l : List α) :
    List.Perm (sortGE ge l) l := by
  induction l with
  | nil => simp [sortGE]
  | cons x xs ih =>
    exact (insGE_perm ge x (sortGE ge xs)).trans (List.Perm.cons x ih)

lemma mem_sortGE (ge : α → α → Bool) (l : List α) (a : α) :
    a ∈ sortGE ge l ↔ a ∈ l :=
  (sortGE_perm ge l).mem_iff

lemma mem_insGE (ge : α → α → Bool) (x : α) (l : List α) (a : α) :
    a ∈ insGE ge x l ↔ a = x ∨ a ∈ l := by
  rw [(insGE_perm ge x l).mem_iff, List.mem_cons]

lemma insGE_pairwise {R Q : α → α → Prop} (ge : α → α → Bool) (x : α)
    (m : List α) (hm : m.Pairwise R) (hx : ∀ y ∈ m, Q x y)
    (h1 : ∀ a b, ge a b = true → Q a b → R a b)
    (h2 : ∀ a b, ge a b = false → R b a)
    (h3 : ∀ a b c, ge a b = true → R b c → Q a c → R a c) :
    (insGE ge x m).Pairwise R := by
  induction m with
  | nil => simp [insGE]
  | cons y ys ih =>
    rcases List.pairwise_cons.1 hm with ⟨hy, hys⟩
    simp only [insGE]
    by_cases h : ge x y
    · simp only [h, if_pos]
      refine List.pairwise_cons.2 ⟨?_, hm⟩
      intro z hz
      rcases List.mem_cons.1 hz with rfl | hz
      · exact h1 _ _ h (hx _ (List.mem_cons_self _ _))
      · exact h3 _ _ _ h (hy z hz) (hx z (List.mem_cons.2 (Or.inr hz)))
    · simp only [h, if_neg, Bool.false_eq_true, not_false_iff]
      refine List.pairwise_cons.2 ⟨?_, ?_⟩
      · intro z hz
        rcases (mem_insGE ge x ys z).1 hz with rfl | hz
        · exact h2 _ _ (by simpa using h)
        · exact hy z hz
      · exact ih hys fun z hz => hx z (List.mem_cons.2 (Or.inr hz))

lemma sortGE_pairwise {R Q : α → α → Prop} (ge : α → α → Bool) (l : List α)
    (hl : l.Pairwise Q)
    (h1 : ∀ a b, ge a b = true → Q a b → R a b)
    (h2 : ∀ a b, ge a b = false → R b a)
    (h3 : ∀ a b c, ge a b = true → R b c → Q a c → R a c) :
    (sortGE ge l).Pairwise R := by
  induction l with
  | nil => simp [sortGE]
  | cons x xs ih =>
    rcases List.pairwise_cons.1 hl with ⟨hx, hxs⟩
    exact insGE_pairwise ge x (sortGE ge xs) (ih hxs)
      (fun y hy => hx y ((mem_sortGE ge xs y).1 hy)) h1 h2 h3

end SortLemmas

section UnionFindLemmas

lemma pstep_of_ge (p : List ℕ) (x : ℕ) (hx : p.length ≤ x) : pstep p x = x := by
  unfold pstep
  exact List.getD_eq_default p x hx

lemma pstep_lt (p : List ℕ) (x : ℕ) (hwf : Wf p) (hx : x < p.length) :
    pstep p x < p.length :=
  hwf.1 x hx

lemma iterate_pstep_lt (p : List ℕ) (hwf : Wf p) (k x : ℕ) (hx : x < p.length) :
    (pstep p)^[k] x < p.length := by
  induction k generalizing x with
  | zero => simpa using hx
  | succ k ih =>
    rw [Function.iterate_succ_apply]
    exact ih (pstep p x) (pstep_lt p x hwf hx)

lemma rootOf_of_root (p : List ℕ) (x : ℕ) (h : pstep p x = x) : rootOf p x = x :=
  Function.iterate_fixed h p.length

lemma rootOf_of_ge (p : List ℕ) (x : ℕ) (hx : p.length ≤ x) : rootOf p x = x :=
  rootOf_of_root p x (pstep_of_ge p x hx)

lemma rootOf_pstep (p : List ℕ) (x : ℕ) (hwf : Wf p) :
    rootOf p (pstep p x) = rootOf p x := by
  unfold rootOf
  rw [← Function.iterate_succ_apply, Function.iterate_succ_apply']
  exact hwf.2 x

lemma rootOf_rootOf (p : List ℕ) (x : ℕ) (hwf : Wf p) :
    rootOf p (rootOf p x) = rootOf p x :=
  rootOf_of_root p (rootOf p x) (hwf.2 x)

lemma rootOf_lt (p : List ℕ) (x : ℕ) (hwf : Wf p) (hx : x < p.length) :
    rootOf p x < p.length :=
  iterate_pstep_lt p hwf p.length x hx

lemma stepsTo_of_root (p : List ℕ) (x : ℕ) (h : pstep p x = x) :
    ∀ f, stepsTo p f x = 0
  | 0 => rfl
  | f + 1 => by simp [stepsTo, h]

lemma stepsTo_succ_of_nonroot (p : List ℕ) (x f : ℕ) (h : pstep p x ≠ x) :
    stepsTo p (f + 1) x = stepsTo p f (pstep p x) + 1 := by
  simp [stepsTo, h]

lemma stepsTo_le (p : List ℕ) : ∀ f x, stepsTo p f x ≤ f := by
  intro f
  induction f with
  | zero => intro x; simp [stepsTo]
  | succ f ih =>
    intro x
    by_cases h : pstep p x = x
    · simp [stepsTo_of_root p x h]
    · rw [stepsTo_succ_of_nonroot p x f h]
      exact Nat.succ_le_succ (ih (pstep p x))

lemma stepsTo_spec (p : List ℕ) :
    ∀ f x, pstep p ((pstep p)^[f] x) = (pstep p)^[f] x →
      (pstep p)^[stepsTo p f x] x = (pstep p)^[f] x ∧
        ∀ k, k < stepsTo p f x →
          pstep p ((pstep p)^[k] x) ≠ (pstep p)^[k] x := by
  intro f
  induction f with
  | zero => intro x _; exact ⟨rfl, fun k hk => absurd hk (by simp [stepsTo])⟩
  | succ f ih =>
    intro x hfix
    by_cases h : pstep p x = x
    · rw [stepsTo_of_root p x h]
      refine ⟨?_, fun k hk => absurd hk (by simp)⟩
      rw [Function.iterate_fixed h (f + 1)]
      simp
    · rw [stepsTo_succ_of_nonroot p x f h]
      rw [Function.iterate_succ_apply] at hfix
      obtain ⟨h1, h2⟩ := ih (pstep p x) hfix
      refine ⟨?_, ?_⟩
      · rw [Function.iterate_succ_apply, h1, ← Function.iterate_succ_apply]
      · intro k hk
        cases k with
        | zero => simpa using h
        | succ k =>
          rw [Function.iterate_succ_apply]
          exact h2 k (Nat.lt_of_succ_lt_succ hk)

lemma stepsTo_fuel_eq (p : List ℕ) :
    ∀ f g x, f ≤ g → pstep p ((pstep p)^[f] x) = (pstep p)^[f] x →
      stepsTo p g x = stepsTo p f x := by
  intro f
  induction f with
  | zero =>
    intro g x _ hfix
    simp only [Function.iterate_zero_apply] at hfix
    rw [stepsTo_of_root p x hfix, stepsTo_of_root p x hfix]
  | succ f ih =>
    intro g x hle hfix
    by_cases h : pstep p x = x
    · rw [stepsTo_of_root p x h, stepsTo_of_root p x h]
    · obtain ⟨g', rfl⟩ : ∃ g', g = g' + 1 :=
        ⟨g - 1, by omega⟩
      rw [stepsTo_succ_of_nonroot p x g' h, stepsTo_succ_of_nonroot p x f h]
      rw [Function.iterate_succ_apply] at hfix
      rw [ih g' (pstep p x) (by omega) hfix]

lemma hgt_reach (p : List ℕ) (x : ℕ) (hwf : Wf p) :
    (pstep p)^[hgt p x] x = rootOf p x :=
  (stepsTo_spec p p.length x (hwf.2 x)).1

lemma hgt_nonroot_before (p : List ℕ) (x : ℕ) (hwf : Wf p) :
    ∀ k, k < hgt p x → pstep p ((pstep p)^[k] x) ≠ (pstep p)^[k] x :=
  (stepsTo_spec p p.length x (hwf.2 x)).2

lemma hgt_le_length (p : List ℕ) (x : ℕ) : hgt p x ≤ p.length :=
  stepsTo_le p p.length x

lemma hgt_of_root (p : List ℕ) (x : ℕ) (h : pstep p x = x) : hgt p x = 0 :=
  stepsTo_of_root p x h p.length

lemma nonroot_lt_length (p : List ℕ) (x : ℕ) (h : pstep p x ≠ x) : x < p.length := by
  by_contra hx
  exact h (pstep_of_ge p x (le_of_not_lt hx))

lemma hgt_succ (p : List ℕ) (x : ℕ) (hwf : Wf p) (h : pstep p x ≠ x) :
    hgt p x = hgt p (pstep p x) + 1 := by
  have hx : x < p.length := nonroot_lt_length p x h
  obtain ⟨m, hm⟩ : ∃ m, p.length = m + 1 := ⟨p.length - 1, by omega⟩
  have hfix : pstep p ((pstep p)^[m] (pstep p x)) = (pstep p)^[m] (pstep p x) := by
    have := hwf.2 x
    rw [rootOf, hm, Function.iterate_succ_apply] at this
    exact this
  unfold hgt
  rw [hm, stepsTo_succ_of_nonroot p x m h,
    stepsTo_fuel_eq p m (m + 1) (pstep p x) (by omega) hfix]

lemma hgt_pstep_le (p : List ℕ) (x : ℕ) (hwf : Wf p) :
    hgt p (pstep p x) ≤ hgt p x := by
  by_cases h : pstep p x = x
  · rw [h]
  · rw [hgt_succ p x hwf h]; omega

lemma hgt_iterate_le (p : List ℕ) (x : ℕ) (hwf : Wf p) (k : ℕ) :
    hgt p ((pstep p)^[k] x) ≤ hgt p x := by
  induction k with
  | zero => simp
  | succ k ih =>
    rw [Function.iterate_succ_apply']
    exact le_trans (hgt_pstep_le p ((pstep p)^[k] x) hwf) ih

lemma hgt_iterate_eq (p : List ℕ) (x : ℕ) (hwf : Wf p) :
    ∀ k, k ≤ hgt p x → hgt p ((pstep p)^[k] x) = hgt p x - k := by
  intro k
  induction k with
  | zero => simp
  | succ k ih =>
    intro hk
    have hk' : k < hgt p x := by omega
    have hnr := hgt_nonroot_before p x hwf k hk'
    rw [Function.iterate_succ_apply']
    have := hgt_succ p ((pstep p)^[k] x) hwf hnr
    have hik := ih (by omega)
    omega

lemma iter_ge_hgt (p : List ℕ) (x : ℕ) (hwf : Wf p) (k : ℕ) (hk : hgt p x ≤ k) :
    (pstep p)^[k] x = rootOf p x := by
  obtain ⟨d, rfl⟩ : ∃ d, k = hgt p x + d := ⟨k - hgt p x, by omega⟩
  rw [Nat.add_comm, Function.iterate_add_apply, hgt_reach p x hwf,
    Function.iterate_fixed (hwf.2 x) d]

lemma hgt_lt_length (p : List ℕ) (x : ℕ) (hwf : Wf p) (hx : x < p.length) :
    hgt p x < p.length := by
  have hmap : ∀ a ∈ Finset.range (hgt p x + 1),
      (pstep p)^[a] x ∈ Finset.range p.length := by
    intro a _
    exact Finset.mem_range.2 (iterate_pstep_lt p hwf a x hx)
  have hinj : Set.InjOn (fun a => (pstep p)^[a] x)
      ↑(Finset.range (hgt p x + 1)) := by
    intro a ha b hb hab
    simp only [Finset.coe_range, Set.mem_Iio] at ha hb
    have h1 := hgt_iterate_eq p x hwf a (by omega)
    have h2 := hgt_iterate_eq p x hwf b (by omega)
    simp only at hab
    rw [hab, h2] at h1
    omega
  have := Finset.card_le_card_of_injOn _ hmap hinj
  simp only [Finset.card_range] at this
  omega

end UnionFindLemmas

lemma pstep_set (p : List ℕ) (a v z : ℕ) :
    pstep (p.set a v) z = if z = a ∧ a < p.length then v else pstep p z := by
  unfold pstep
  rw [List.getD_eq_getElem?_getD, List.getD_eq_getElem?_getD, List.getElem?_set]
  by_cases h1 : a = z
  · subst h1
    by_cases h2 : a < p.length
    · simp [h2]
    · rw [if_pos rfl, if_neg h2, if_neg (fun hc => h2 hc.2),
        List.getElem?_eq_none (le_of_not_lt h2)]
  · rw [if_neg h1, if_neg (fun hc => h1 hc.1.symm)]

lemma iterate_congr (p p' : List ℕ) (x : ℕ)
    (h : ∀ k, pstep p' ((pstep p)^[k] x) = pstep p ((pstep p)^[k] x)) :
    ∀ k, (pstep p')^[k] x = (pstep p)^[k] x := by
  intro k
  induction k with
  | zero => simp
  | succ k ih =>
    rw [Function.iterate_succ_apply', Function.iterate_succ_apply', ih, h k]

lemma stepsTo_congr (p p' : List ℕ) :
    ∀ f x, (∀ k, pstep p' ((pstep p)^[k] x) = pstep p ((pstep p)^[k] x)) →
      stepsTo p' f x = stepsTo p f x := by
  intro f
  induction f with
  | zero => intro x _; rfl
  | succ f ih =>
    intro x h
    have h0 : pstep p' x = pstep p x := by simpa using h 0
    by_cases hr : pstep p x = x
    · rw [stepsTo_of_root p x hr, stepsTo_of_root p' x (by rw [h0, hr])]
    · rw [stepsTo_succ_of_nonroot p x f hr,
        stepsTo_succ_of_nonroot p' x f (by rw [h0]; exact hr), h0]
      congr 1
      refine ih (pstep p x) fun k => ?_
      have := h (k + 1)
      rwa [Function.iterate_succ_apply] at this

lemma root_of_hgt_zero (p : List ℕ) (y : ℕ) (hp : p.length ≠ 0)
    (h : hgt p y = 0) : pstep p y = y := by
  obtain ⟨m, hm⟩ : ∃ m, p.length = m + 1 := ⟨p.length - 1, by omega⟩
  unfold hgt at h
  rw [hm] at h
  by_contra hr
  rw [stepsTo_succ_of_nonroot p y m hr] at h
  omega

lemma half_pres (p : List ℕ) (x : ℕ) (hwf : Wf p) (hx : pstep p x ≠ x) :
    Wf (p.set x (pstep p (pstep p x))) ∧
      (∀ y, rootOf (p.set x (pstep p (pstep p x))) y = rootOf p y) ∧
      hgt (p.set x (pstep p (pstep p x))) (pstep p (pstep p x)) =
        hgt p (pstep p (pstep p x)) ∧
      hgt p (pstep p (pstep p x)) < hgt p x := by
  have hxlt : x < p.length := nonroot_lt_length p x hx
  have hlen : (p.set x (pstep p (pstep p x))).length = p.length :=
    List.length_set p x _
  have hKg : hgt p (pstep p (pstep p x)) < hgt p x := by
    by_cases hpx : pstep p (pstep p x) = pstep p x
    · rw [hpx, hgt_succ p x hwf hx]
      omega
    · have h1 := hgt_succ p x hwf hx
      have h2 := hgt_succ p (pstep p x) hwf hpx
      omega
  have hagree : ∀ z, z ≠ x →
      pstep (p.set x (pstep p (pstep p x))) z = pstep p z := by
    intro z hz
    rw [pstep_set]
    exact if_neg (fun hc => hz hc.1)
  have hpath : ∀ y, hgt p y < hgt p x → ∀ k, (pstep p)^[k] y ≠ x := by
    intro y hy k hk
    have := hgt_iterate_le p y hwf k
    rw [hk] at this
    omega
  have hiter : ∀ y, hgt p y < hgt p x → ∀ k,
      (pstep (p.set x (pstep p (pstep p x))))^[k] y = (pstep p)^[k] y := by
    intro y hy
    exact iterate_congr p _ y (fun k => hagree _ (hpath y hy k))
  have main : ∀ m y k, hgt p y ≤ m → hgt p y ≤ k →
      (pstep (p.set x (pstep p (pstep p x))))^[k] y = rootOf p y := by
    intro m
    induction m with
    | zero =>
      intro y k h0 _
      have hy0 : hgt p y = 0 := by omega
      have hroot : pstep p y = y := root_of_hgt_zero p y (by omega) hy0
      have hyx : y ≠ x := fun h => hx (h ▸ hroot)
      rw [Function.iterate_fixed (by rw [hagree y hyx]; exact hroot : pstep (p.set x (pstep p (pstep p x))) y = y) k,
        rootOf_of_root p y hroot]
    | succ m ih =>
      intro y k hm hk
      by_cases hroot : pstep p y = y
      · have hyx : y ≠ x := fun h => hx (h ▸ hroot)
        rw [Function.iterate_fixed (by rw [hagree y hyx]; exact hroot : pstep (p.set x (pstep p (pstep p x))) y = y) k,
          rootOf_of_root p y hroot]
      · have h1 : hgt p y = hgt p (pstep p y) + 1 := hgt_succ p y hwf hroot
        obtain ⟨k', rfl⟩ : ∃ k', k = k' + 1 := ⟨k - 1, by omega⟩
        by_cases hyx : y = x
        · subst hyx
          have hstep : pstep (p.set y (pstep p (pstep p y))) y =
              pstep p (pstep p y) := by
            rw [pstep_set]
            exact if_pos ⟨rfl, hxlt⟩
          rw [Function.iterate_succ_apply, hstep,
            hiter (pstep p (pstep p y)) hKg k',
            iter_ge_hgt p _ hwf k' (by omega),
            rootOf_pstep p _ hwf, rootOf_pstep p _ hwf]
        · have hstep : pstep (p.set x (pstep p (pstep p x))) y = pstep p y :=
            hagree y hyx
          rw [Function.iterate_succ_apply, hstep]
          exact (ih (pstep p y) k' (by omega) (by omega)).trans
            (rootOf_pstep p y hwf)
  have hroots : ∀ y, rootOf (p.set x (pstep p (pstep p x))) y = rootOf p y := by
    intro y
    show (pstep (p.set x (pstep p (pstep p x))))^[(p.set x (pstep p (pstep p x))).length] y = rootOf p y
    rw [hlen]
    exact main (hgt p y) y p.length le_rfl (hgt_le_length p y)
  refine ⟨⟨?_, ?_⟩, hroots, ?_, hKg⟩
  · intro i hi
    rw [hlen] at hi
    rw [hlen, pstep_set]
    by_cases hc : i = x ∧ x < p.length
    · rw [if_pos hc]
      exact pstep_lt p (pstep p x) hwf (pstep_lt p x hwf hxlt)
    · rw [if_neg hc]
      exact pstep_lt p i hwf hi
  · intro y
    rw [hroots y]
    have hr : pstep p (rootOf p y) = rootOf p y := hwf.2 y
    have hrx : rootOf p y ≠ x := fun h => hx (h ▸ hr)
    rw [hagree (rootOf p y) hrx]
    exact hr
  · unfold hgt
    rw [hlen]
    exact stepsTo_congr p _ p.length _ (fun k => hagree _ (hpath _ hKg k))

lemma findAux_spec : ∀ m (p : List ℕ) (x fuel : ℕ), Wf p → hgt p x ≤ m →
    hgt p x ≤ fuel →
    (findAux fuel p x).1 = rootOf p x ∧ Wf (findAux fuel p x).2 ∧
      (findAux fuel p x).2.length = p.length ∧
      ∀ y, rootOf (findAux fuel p x).2 y = rootOf p y := by
  intro m
  induction m with
  | zero =>
    intro p x fuel hwf h0 _
    have hroot : pstep p x = x := by
      rcases Nat.eq_zero_or_pos p.length with hp | hp
      · exact pstep_of_ge p x (by omega)
      · exact root_of_hgt_zero p x (by omega) (by omega)
    have : findAux fuel p x = (x, p) := by
      cases fuel with
      | zero => rfl
      | succ fuel => simp [findAux, hroot]
    rw [this]
    exact ⟨(rootOf_of_root p x hroot).symm, hwf, rfl, fun _ => rfl⟩
  | succ m ih =>
    intro p x fuel hwf hm hk
    by_cases hroot : pstep p x = x
    · have : findAux fuel p x = (x, p) := by
        cases fuel with
        | zero => rfl
        | succ fuel => simp [findAux, hroot]
      rw [this]
      exact ⟨(rootOf_of_root p x hroot).symm, hwf, rfl, fun _ => rfl⟩
    · have hxlt : x < p.length := nonroot_lt_length p x hroot
      have h1 : hgt p x = hgt p (pstep p x) + 1 := hgt_succ p x hwf hroot
      have hpos : 1 ≤ hgt p x := by omega
      obtain ⟨f, rfl⟩ : ∃ f, fuel = f + 1 := ⟨fuel - 1, by omega⟩
      obtain ⟨hwf', hroots', hhgt', hlt'⟩ := half_pres p x hwf hroot
      have hstep : pstep (p.set x (pstep p (pstep p x))) x =
          pstep p (pstep p x) := by
        rw [pstep_set]
        exact if_pos ⟨rfl, hxlt⟩
      have hunfold : findAux (f + 1) p x =
          findAux f (p.set x (pstep p (pstep p x))) (pstep p (pstep p x)) := by
        simp only [findAux, hroot, if_neg, ite_false]
        rw [hstep]
      rw [hunfold]
      have hglen : (p.set x (pstep p (pstep p x))).length = p.length :=
        List.length_set p x _
      have hrec := ih (p.set x (pstep p (pstep p x))) (pstep p (pstep p x)) f
        hwf' (by omega) (by omega)
      obtain ⟨r1, r2, r3, r4⟩ := hrec
      refine ⟨?_, r2, by rw [r3, hglen], fun y => ?_⟩
      · rw [r1, hroots' (pstep p (pstep p x)), rootOf_pstep p _ hwf,
          rootOf_pstep p _ hwf]
      · rw [r4 y, hroots' y]

lemma findAux_fuel_eq : ∀ m (p : List ℕ) (x f₁ f₂ : ℕ), Wf p → hgt p x ≤ m →
    hgt p x ≤ f₁ → hgt p x ≤ f₂ → findAux f₁ p x = findAux f₂ p x := by
  intro m
  induction m with
  | zero =>
    intro p x f₁ f₂ hwf h0 _ _
    have hroot : pstep p x = x := by
      rcases Nat.eq_zero_or_pos p.length with hp | hp
      · exact pstep_of_ge p x (by omega)
      · exact root_of_hgt_zero p x (by omega) (by omega)
    have heq : ∀ f, findAux f p x = (x, p) := by
      intro f
      cases f with
      | zero => rfl
      | succ f => simp [findAux, hroot]
    rw [heq, heq]
  | succ m ih =>
    intro p x f₁ f₂ hwf hm h₁ h₂
    by_cases hroot : pstep p x = x
    · have heq : ∀ f, findAux f p x = (x, p) := by
        intro f
        cases f with
        | zero => rfl
        | succ f => simp [findAux, hroot]
      rw [heq, heq]
    · have hxlt : x < p.length := nonroot_lt_length p x hroot
      have h1 : hgt p x = hgt p (pstep p x) + 1 := hgt_succ p x hwf hroot
      obtain ⟨g₁, rfl⟩ : ∃ g, f₁ = g + 1 := ⟨f₁ - 1, by omega⟩
      obtain ⟨g₂, rfl⟩ : ∃ g, f₂ = g + 1 := ⟨f₂ - 1, by omega⟩
      obtain ⟨hwf', _, hhgt', hlt'⟩ := half_pres p x hwf hroot
      have hstep : pstep (p.set x (pstep p (pstep p x))) x =
          pstep p (pstep p x) := by
        rw [pstep_set]
        exact if_pos ⟨rfl, hxlt⟩
      have hunfold : ∀ g, findAux (g + 1) p x =
          findAux g (p.set x (pstep p (pstep p x))) (pstep p (pstep p x)) := by
        intro g
        simp only [findAux, hroot, if_neg, ite_false]
        rw [hstep]
      rw [hunfold, hunfold]
      exact ih _ _ g₁ g₂ hwf' (by omega) (by omega) (by omega)

lemma find_spec (p : List ℕ) (x : ℕ) (hwf : Wf p) :
    (find p x).1 = rootOf p x ∧ Wf (find p x).2 ∧
      (find p x).2.length = p.length ∧
      ∀ y, rootOf (find p x).2 y = rootOf p y :=
  findAux_spec (hgt p x) p x p.length hwf le_rfl (hgt_le_length p x)

lemma link_pres (q : List ℕ) (ra rb : ℕ) (hwf : Wf q) (hra : pstep q ra = ra)
    (hrb : pstep q rb = rb) (hne : ra ≠ rb) (hralt : ra < q.length)
    (hrblt : rb < q.length) :
    Wf (q.set rb ra) ∧
      ∀ y, rootOf (q.set rb ra) y =
        if rootOf q y = rb then ra else rootOf q y := by
  have hlen : (q.set rb ra).length = q.length := List.length_set q rb _
  have hagree : ∀ z, z ≠ rb → pstep (q.set rb ra) z = pstep q z := by
    intro z hz
    rw [pstep_set]
    exact if_neg (fun hc => hz hc.1)
  have hstep_rb : pstep (q.set rb ra) rb = ra := by
    rw [pstep_set]
    exact if_pos ⟨rfl, hrblt⟩
  have hfix_ra : pstep (q.set rb ra) ra = ra := by
    rw [hagree ra hne]
    exact hra
  have hrootcase : ∀ y k, pstep q y = y → 1 ≤ k →
      (pstep (q.set rb ra))^[k] y =
        (if rootOf q y = rb then ra else rootOf q y) := by
    intro y k hroot hk
    have hry : rootOf q y = y := rootOf_of_root q y hroot
    by_cases hyb : y = rb
    · subst hyb
      rw [if_pos hry]
      obtain ⟨k', rfl⟩ : ∃ k', k = k' + 1 := ⟨k - 1, by omega⟩
      rw [Function.iterate_succ_apply, hstep_rb,
        Function.iterate_fixed hfix_ra k']
    · rw [if_neg (by rw [hry]; exact hyb)]
      rw [Function.iterate_fixed (by rw [hagree y hyb]; exact hroot :
        pstep (q.set rb ra) y = y) k, hry]
  have main : ∀ m y k, hgt q y ≤ m → hgt q y + 1 ≤ k →
      (pstep (q.set rb ra))^[k] y =
        (if rootOf q y = rb then ra else rootOf q y) := by
    intro m
    induction m with
    | zero =>
      intro y k h0 hk
      have hy0 : hgt q y = 0 := by omega
      have hroot : pstep q y = y := by
        rcases Nat.eq_zero_or_pos q.length with hq | hq
        · exact pstep_of_ge q y (by omega)
        · exact root_of_hgt_zero q y (by omega) hy0
      exact hrootcase y k hroot (by omega)
    | succ m ih =>
      intro y k hm hk
      by_cases hroot : pstep q y = y
      · exact hrootcase y k hroot (by omega)
      · have h1 : hgt q y = hgt q (pstep q y) + 1 := hgt_succ q y hwf hroot
        have hyb : y ≠ rb := fun h => hroot (h ▸ hrb)
        obtain ⟨k', rfl⟩ : ∃ k', k = k' + 1 := ⟨k - 1, by omega⟩
        rw [Function.iterate_succ_apply, hagree y hyb,
          ih (pstep q y) k' (by omega) (by omega), rootOf_pstep q y hwf]
  have hroots : ∀ y, rootOf (q.set rb ra) y =
      if rootOf q y = rb then ra else rootOf q y := by
    intro y
    show (pstep (q.set rb ra))^[(q.set rb ra).length] y = _
    rw [hlen]
    exact main (hgt q y) y q.length le_rfl
      (by have h1 := hgt_le_length q y
          have h2 := hgt_lt_length q y hwf
          by_cases hy : y < q.length
          · have := h2 hy; omega
          · have : hgt q y = 0 :=
              hgt_of_root q y (pstep_of_ge q y (by omega))
            omega)
  refine ⟨⟨?_, ?_⟩, hroots⟩
  · intro i hi
    rw [hlen] at hi
    rw [hlen, pstep_set]
    by_cases hc : i = rb ∧ rb < q.length
    · rw [if_pos hc]
      exact hralt
    · rw [if_neg hc]
      exact pstep_lt q i hwf hi
  · intro y
    rw [hroots y]
    by_cases hc : rootOf q y = rb
    · rw [if_pos hc]
      exact hfix_ra
    · rw [if_neg hc]
      rw [hagree (rootOf q y) hc]
      exact hwf.2 y

lemma union_def (p : List ℕ) (a b : ℕ) :
    union p a b =
      if (find p a).1 ≠ (find ((find p a).2) b).1
      then (find ((find p a).2) b).2.set (find ((find p a).2) b).1 (find p a).1
      else (find ((find p a).2) b).2 := rfl

lemma union_spec (p : List ℕ) (a b : ℕ) (hwf : Wf p) (ha : a < p.length)
    (hb : b < p.length) :
    Wf (union p a b) ∧ (union p a b).length = p.length ∧
      ∀ y, rootOf (union p a b) y =
        if rootOf p y = rootOf p b ∧ rootOf p a ≠ rootOf p b then rootOf p a
        else rootOf p y := by
  obtain ⟨fa1, fa2, fa3, fa4⟩ := find_spec p a hwf
  obtain ⟨fb1, fb2, fb3, fb4⟩ := find_spec ((find p a).2) b fa2
  have hchain : ∀ y, rootOf ((find ((find p a).2) b).2) y = rootOf p y := by
    intro y
    rw [fb4 y, fa4 y]
  have hra : (find p a).1 = rootOf p a := fa1
  have hrb : (find ((find p a).2) b).1 = rootOf p b := by
    rw [fb1, fa4 b]
  have hlen2 : (find ((find p a).2) b).2.length = p.length := by
    rw [fb3, fa3]
  by_cases hcase : rootOf p a = rootOf p b
  · have hcond : ¬((find p a).1 ≠ (find ((find p a).2) b).1) := by
      rw [hra, hrb]
      exact fun h => h hcase
    rw [union_def, if_neg hcond]
    refine ⟨fb2, hlen2, fun y => ?_⟩
    rw [hchain y, if_neg (fun hc => hc.2 hcase)]
  · have hcond : (find p a).1 ≠ (find ((find p a).2) b).1 := by
      rw [hra, hrb]
      exact hcase
    rw [union_def, if_pos hcond]
    have hfixa : pstep ((find ((find p a).2) b).2) (rootOf p a) = rootOf p a := by
      have := fb2.2 a
      rwa [hchain a] at this
    have hfixb : pstep ((find ((find p a).2) b).2) (rootOf p b) = rootOf p b := by
      have := fb2.2 b
      rwa [hchain b] at this
    have hlta : rootOf p a < (find ((find p a).2) b).2.length := by
      rw [hlen2]
      exact rootOf_lt p a hwf ha
    have hltb : rootOf p b < (find ((find p a).2) b).2.length := by
      rw [hlen2]
      exact rootOf_lt p b hwf hb
    obtain ⟨hwf', hroots'⟩ := link_pres ((find ((find p a).2) b).2)
      (rootOf p a) (rootOf p b) fb2 hfixa hfixb hcase hlta hltb
    rw [hra, hrb]
    refine ⟨hwf', ?_, fun y => ?_⟩
    · rw [List.length_set, hlen2]
    · rw [hroots' y, hchain y]
      by_cases hc : rootOf p y = rootOf p b
      · rw [if_pos hc, if_pos ⟨hc, hcase⟩]
      · rw [if_neg hc, if_neg (fun hcc => hc hcc.1)]

lemma pstep_range (n x : ℕ) : pstep (List.range n) x = x := by
  by_cases h : x < n
  · unfold pstep
    rw [List.getD_eq_getElem _ _ (by simpa using h)]
    simp
  · exact pstep_of_ge _ x (by simpa using le_of_not_lt h)

lemma rootOf_range (n x : ℕ) : rootOf (List.range n) x = x :=
  rootOf_of_root _ x (pstep_range n x)

lemma wf_range (n : ℕ) : Wf (List.range n) := by
  constructor
  · intro i hi
    rw [pstep_range]
    simpa using hi
  · intro x
    rw [rootOf_range, pstep_range]

lemma eqvGen_of_eqvGen {r s : ℕ → ℕ → Prop}
    (h : ∀ u v, r u v → Relation.EqvGen s u v) :
    ∀ {y z}, Relation.EqvGen r y z → Relation.EqvGen s y z := by
  intro y z hyz
  induction hyz with
  | rel u v huv => exact h u v huv
  | refl u => exact Relation.EqvGen.refl u
  | symm u v _ ih => exact Relation.EqvGen.symm u v ih
  | trans u v w _ _ ih1 ih2 => exact Relation.EqvGen.trans u v w ih1 ih2

lemma dot_comm (u v : List ℚ) : dot u v = dot v u := by
  unfold dot
  rw [List.zipWith_comm_of_comm _ (fun a b => mul_comm a b)]

lemma union_rootEq_iff (p : List ℕ) (i j : ℕ) (hwf : Wf p) (hi : i < p.length)
    (hj : j < p.length) (u v : ℕ) :
    rootOf (union p i j) u = rootOf (union p i j) v ↔
      (rootOf p u = rootOf p v ∨
        (rootOf p u = rootOf p i ∧ rootOf p v = rootOf p j) ∨
        (rootOf p u = rootOf p j ∧ rootOf p v = rootOf p i)) := by
  obtain ⟨_, _, hform⟩ := union_spec p i j hwf hi hj
  rw [hform u, hform v]
  by_cases hab : rootOf p i = rootOf p j
  · have hcu : ¬(rootOf p u = rootOf p j ∧ rootOf p i ≠ rootOf p j) :=
      fun hc => hc.2 hab
    have hcv : ¬(rootOf p v = rootOf p j ∧ rootOf p i ≠ rootOf p j) :=
      fun hc => hc.2 hab
    rw [if_neg hcu, if_neg hcv]
    constructor
    · exact Or.inl
    · rintro (h | ⟨h1, h2⟩ | ⟨h1, h2⟩)
      · exact h
      · rw [h1, h2, hab]
      · rw [h1, h2, hab]
  · by_cases hu : rootOf p u = rootOf p j <;>
      by_cases hv : rootOf p v = rootOf p j
    · rw [if_pos ⟨hu, hab⟩, if_pos ⟨hv, hab⟩]
      constructor
      · intro _
        exact Or.inl (hu.trans hv.symm)
      · intro _
        rfl
    · rw [if_pos ⟨hu, hab⟩, if_neg (fun hc => hv hc.1)]
      constructor
      · intro h
        exact Or.inr (Or.inr ⟨hu, h.symm⟩)
      · rintro (h | ⟨h1, h2⟩ | ⟨h1, h2⟩)
        · exact absurd (h.symm.trans hu) hv
        · exact absurd h2 hv
        · exact h2.symm
    · rw [if_neg (fun hc => hu hc.1), if_pos ⟨hv, hab⟩]
      constructor
      · intro h
        exact Or.inr (Or.inl ⟨h, hv⟩)
      · rintro (h | ⟨h1, h2⟩ | ⟨h1, h2⟩)
        · exact absurd (h.trans hv) hu
        · exact h1
        · exact absurd h1 hu
    · rw [if_neg (fun hc => hu hc.1), if_neg (fun hc => hv hc.1)]
      constructor
      · exact Or.inl
      · rintro (h | ⟨h1, h2⟩ | ⟨h1, h2⟩)
        · exact h
        · exact absurd h2 hv
        · exact absurd h1 hu

lemma eqvGen_iff_congr {r s : ℕ → ℕ → Prop} (h : ∀ u v, r u v ↔ s u v)
    {y z : ℕ} : Relation.EqvGen r y z ↔ Relation.EqvGen s y z :=
  ⟨eqvGen_of_eqvGen fun u v hr => Relation.EqvGen.rel u v ((h u v).1 hr),
   eqvGen_of_eqvGen fun u v hs => Relation.EqvGen.rel u v ((h u v).2 hs)⟩

lemma pairRel_cons (i j : ℕ) (L : List (ℕ × ℕ)) (u v : ℕ) :
    pairRel ((i, j) :: L) u v ↔
      pairRel L u v ∨ (u = i ∧ v = j ∧ i < j) ∨ (u = j ∧ v = i ∧ i < j) := by
  simp only [pairRel, List.mem_cons, Prod.mk.injEq]
  constructor
  · rintro (⟨(⟨rfl, rfl⟩ | hm), hlt⟩ | ⟨(⟨rfl, rfl⟩ | hm), hlt⟩)
    · exact Or.inr (Or.inl ⟨rfl, rfl, hlt⟩)
    · exact Or.inl (Or.inl ⟨hm, hlt⟩)
    · exact Or.inr (Or.inr ⟨rfl, rfl, hlt⟩)
    · exact Or.inl (Or.inr ⟨hm, hlt⟩)
  · rintro ((⟨hm, hlt⟩ | ⟨hm, hlt⟩) | ⟨rfl, rfl, hlt⟩ | ⟨rfl, rfl, hlt⟩)
    · exact Or.inl ⟨Or.inr hm, hlt⟩
    · exact Or.inr ⟨Or.inr hm, hlt⟩
    · exact Or.inl ⟨Or.inl ⟨rfl, rfl⟩, hlt⟩
    · exact Or.inr ⟨Or.inl ⟨rfl, rfl⟩, hlt⟩

lemma processPairs_spec :
    ∀ (L : List (ℕ × ℕ)) (p : List ℕ), Wf p →
      (∀ ij ∈ L, ij.1 < p.length ∧ ij.2 < p.length) →
      Wf (processPairs L p) ∧ (processPairs L p).length = p.length ∧
        ∀ y z, (rootOf (processPairs L p) y = rootOf (processPairs L p) z ↔
          Relation.EqvGen
            (fun u v => rootOf p u = rootOf p v ∨ pairRel L u v) y z) := by
  intro L
  induction L with
  | nil =>
    intro p hwf _
    refine ⟨hwf, rfl, fun y z => ?_⟩
    have hequiv : Equivalence
        (fun u v : ℕ => rootOf p u = rootOf p v ∨ pairRel [] u v) := by
      constructor
      · intro x
        exact Or.inl rfl
      · rintro x y (h | h)
        · exact Or.inl h.symm
        · simp [pairRel] at h
      · rintro x y z (h1 | h1) (h2 | h2)
        · exact Or.inl (h1.trans h2)
        · simp [pairRel] at h2
        · simp [pairRel] at h1
        · simp [pairRel] at h1
    rw [hequiv.eqvGen_iff]
    constructor
    · exact Or.inl
    · rintro (h | h)
      · exact h
      · simp [pairRel] at h
  | cons ij L' ih =>
    obtain ⟨i, j⟩ := ij
    intro p hwf hbound
    obtain ⟨hi, hj⟩ := hbound (i, j) (List.mem_cons_self _ _)
    have hbound' : ∀ ij ∈ L', ij.1 < p.length ∧ ij.2 < p.length :=
      fun ij hm => hbound ij (List.mem_cons.2 (Or.inr hm))
    have hstep : processPairs ((i, j) :: L') p =
        processPairs L' (unionStep p (i, j)) := rfl
    by_cases hij : j ≤ i
    · have hus : unionStep p (i, j) = p := if_pos hij
      rw [hstep, hus]
      obtain ⟨w1, w2, w3⟩ := ih p hwf hbound'
      refine ⟨w1, w2, fun y z => ?_⟩
      rw [w3 y z]
      refine eqvGen_iff_congr (fun u v => ?_)
      rw [pairRel_cons]
      constructor
      · rintro (h | h)
        · exact Or.inl h
        · exact Or.inr (Or.inl h)
      · rintro (h | (h | ⟨_, _, hlt⟩ | ⟨_, _, hlt⟩))
        · exact Or.inl h
        · exact Or.inr h
        · omega
        · omega
    · have hlt : i < j := by omega
      have hus : unionStep p (i, j) = union p i j := if_neg hij
      rw [hstep, hus]
      obtain ⟨uwf, ulen, _⟩ := union_spec p i j hwf hi hj
      obtain ⟨w1, w2, w3⟩ := ih (union p i j) uwf
        (fun ij hm => by rw [ulen]; exact hbound' ij hm)
      refine ⟨w1, by rw [w2, ulen], fun y z => ?_⟩
      rw [w3 y z]
      constructor
      · refine eqvGen_of_eqvGen fun u v huv => ?_
        rcases huv with huv | huv
        · rcases (union_rootEq_iff p i j hwf hi hj u v).1 huv with
            h | ⟨h1, h2⟩ | ⟨h1, h2⟩
          · exact Relation.EqvGen.rel u v (Or.inl h)
          · refine Relation.EqvGen.trans u j v
              (Relation.EqvGen.trans u i j
                (Relation.EqvGen.rel u i (Or.inl h1))
                (Relation.EqvGen.rel i j (Or.inr
                  ((pairRel_cons i j L' i j).2 (Or.inr (Or.inl ⟨rfl, rfl, hlt⟩))))))
              (Relation.EqvGen.rel j v (Or.inl h2.symm))
          · refine Relation.EqvGen.trans u i v
              (Relation.EqvGen.trans u j i
                (Relation.EqvGen.rel u j (Or.inl h1))
                (Relation.EqvGen.rel j i (Or.inr
                  ((pairRel_cons i j L' j i).2 (Or.inr (Or.inr ⟨rfl, rfl, hlt⟩))))))
              (Relation.EqvGen.rel i v (Or.inl h2.symm))
        · exact Relation.EqvGen.rel u v (Or.inr
            ((pairRel_cons i j L' u v).2 (Or.inl huv)))
      · refine eqvGen_of_eqvGen fun u v huv => ?_
        rcases huv with huv | huv
        · exact Relation.EqvGen.rel u v
            (Or.inl ((union_rootEq_iff p i j hwf hi hj u v).2 (Or.inl huv)))
        · rcases (pairRel_cons i j L' u v).1 huv with
            h | ⟨hu, hv, _⟩ | ⟨hu, hv, _⟩
          · exact Relation.EqvGen.rel u v (Or.inr h)
          · subst hu
            subst hv
            exact Relation.EqvGen.rel u v
              (Or.inl ((union_rootEq_iff p u v hwf hi hj u v).2
                (Or.inr (Or.inl ⟨rfl, rfl⟩))))
          · subst hu
            subst hv
            exact Relation.EqvGen.rel u v
              (Or.inl ((union_rootEq_iff p v u hwf hi hj u v).2
                (Or.inr (Or.inr ⟨rfl, rfl⟩))))

lemma addToGroup_keys (acc : List (ℕ × List ℕ)) (r idx : ℕ) :
    (addToGroup acc r idx).map Prod.fst =
      if r ∈ acc.map Prod.fst then acc.map Prod.fst
      else acc.map Prod.fst ++ [r] := by
  induction acc with
  | nil => simp [addToGroup]
  | cons f rest ih =>
    by_cases hf : f.1 = r
    · simp only [addToGroup, hf, if_pos, ite_true, List.map_cons]
      rw [if_pos (by simp [hf])]
    · simp only [addToGroup, hf, ite_false, List.map_cons, ih]
      by_cases hr : r ∈ rest.map Prod.fst
      · rw [if_pos hr, if_pos (by simp [hr])]
      · rw [if_neg hr, if_neg ?hc, List.cons_append]
        case hc =>
          simp only [List.map_cons, List.mem_cons]
          rintro (hc | hc)
          · exact hf hc.symm
          · exact hr hc

lemma addToGroup_nonempty (acc : List (ℕ × List ℕ)) (r idx : ℕ)
    (h : ∀ e ∈ acc, e.2 ≠ []) :
    ∀ e ∈ addToGroup acc r idx, e.2 ≠ [] := by
  induction acc with
  | nil =>
    intro e he
    simp only [addToGroup, List.mem_singleton] at he
    subst he
    simp
  | cons f rest ih =>
    intro e he
    by_cases hf : f.1 = r
    · simp only [addToGroup, hf, ite_true, List.mem_cons] at he
      rcases he with rfl | he
      · simp
      · exact h e (List.mem_cons.2 (Or.inr he))
    · simp only [addToGroup, hf, ite_false, List.mem_cons] at he
      rcases he with rfl | he
      · exact h e (List.mem_cons_self _ _)
      · exact ih (fun f hf => h f (List.mem_cons.2 (Or.inr hf))) e he

lemma addToGroup_members (q : List ℕ) (k : ℕ) :
    ∀ (acc : List (ℕ × List ℕ)),
      (acc.map Prod.fst).Nodup →
      (∀ e ∈ acc, e.2 = (List.range k).filter (fun i => rootOf q i = e.1)) →
      (rootOf q k ∉ acc.map Prod.fst →
        (List.range k).filter (fun i => rootOf q i = rootOf q k) = []) →
      ∀ e ∈ addToGroup acc (rootOf q k) k,
        e.2 = (List.range (k + 1)).filter (fun i => rootOf q i = e.1) := by
  have hsplit : ∀ x, (List.range (k + 1)).filter (fun i => rootOf q i = x) =
      (List.range k).filter (fun i => rootOf q i = x) ++
        (if rootOf q k = x then [k] else []) := by
    intro x
    rw [List.range_succ, List.filter_append]
    congr 1
    by_cases hc : rootOf q k = x <;> simp [hc]
  intro acc
  induction acc with
  | nil =>
    intro _ _ hnone e he
    simp only [addToGroup, List.mem_singleton] at he
    subst he
    show [k] = _
    rw [hsplit, hnone (by simp), if_pos rfl, List.nil_append]
  | cons f rest ih =>
    intro hnd hmem hnone e he
    rcases List.pairwise_cons.1 hnd with ⟨hfk, hndr⟩
    by_cases hf : f.1 = rootOf q k
    · simp only [addToGroup, hf, ite_true, List.mem_cons] at he
      rcases he with rfl | he
      · show f.2 ++ [k] = _
        dsimp only
        rw [hsplit, if_pos rfl, hmem f (List.mem_cons_self _ _), hf]
      · have := hmem e (List.mem_cons.2 (Or.inr he))
        rw [this, hsplit, if_neg, List.append_nil]
        intro hc
        exact hfk e.1 (List.mem_map_of_mem Prod.fst he) (hf.trans hc)
    · simp only [addToGroup, hf, ite_false, List.mem_cons] at he
      rcases he with rfl | he
      · rw [hmem e (List.mem_cons_self _ _), hsplit,
          if_neg (fun hc => hf hc.symm), List.append_nil]
      · refine ih hndr (fun g hg => hmem g (List.mem_cons.2 (Or.inr hg))) ?_ e he
        intro hr
        refine hnone ?_
        simp only [List.map_cons, List.mem_cons]
        rintro (hc | hc)
        · exact hf hc.symm
        · exact hr hc

lemma groupStep_def (st : List ℕ × List (ℕ × List ℕ)) (idx : ℕ) :
    groupStep st idx = ((find st.1 idx).2, addToGroup st.2 (find st.1 idx).1 idx) :=
  rfl

lemma groupPass_spec (q : List ℕ) (hwf : Wf q) (k : ℕ) :
    Wf (((List.range k).foldl groupStep (q, [])).1) ∧
      (((List.range k).foldl groupStep (q, [])).1).length = q.length ∧
      (∀ y, rootOf (((List.range k).foldl groupStep (q, [])).1) y = rootOf q y) ∧
      ((((List.range k).foldl groupStep (q, [])).2).map Prod.fst).Nodup ∧
      (∀ e ∈ ((List.range k).foldl groupStep (q, [])).2,
        e.2 = (List.range k).filter (fun i => rootOf q i = e.1) ∧ e.2 ≠ []) ∧
      (∀ r, r ∈ (((List.range k).foldl groupStep (q, [])).2).map Prod.fst ↔
        ∃ i, i < k ∧ rootOf q i = r) := by
  induction k with
  | zero =>
    refine ⟨hwf, rfl, fun _ => rfl, by simp, by simp, fun r => ?_⟩
    simp
  | succ k ih =>
    obtain ⟨iw, il, ir, ind, imem, icov⟩ := ih
    have hfold : (List.range (k + 1)).foldl groupStep
        (q, ([] : List (ℕ × List ℕ))) =
        groupStep ((List.range k).foldl groupStep (q, [])) k := by
      rw [List.range_succ, List.foldl_append, List.foldl_cons, List.foldl_nil]
    rw [hfold, groupStep_def]
    obtain ⟨f1, f2, f3, f4⟩ :=
      find_spec ((List.range k).foldl groupStep (q, [])).1 k iw
    have hroot : (find ((List.range k).foldl groupStep (q, [])).1 k).1 =
        rootOf q k := by
      rw [f1, ir k]
    rw [hroot]
    have hnone : rootOf q k ∉
        (((List.range k).foldl groupStep (q, [])).2).map Prod.fst →
        (List.range k).filter (fun i => rootOf q i = rootOf q k) = [] := by
      intro hr
      rw [List.filter_eq_nil_iff]
      intro i hi
      simp only [decide_eq_true_eq]
      intro hroot'
      exact hr ((icov (rootOf q k)).2 ⟨i, by simpa using hi, hroot'⟩)
    have hkeys := addToGroup_keys
      (((List.range k).foldl groupStep (q, [])).2) (rootOf q k) k
    refine ⟨f2, f3.trans il, fun y => (f4 y).trans (ir y), ?_, ?_, ?_⟩
    · rw [hkeys]
      by_cases hc : rootOf q k ∈
          (((List.range k).foldl groupStep (q, [])).2).map Prod.fst
      · rw [if_pos hc]
        exact ind
      · rw [if_neg hc, List.nodup_append]
        exact ⟨ind, List.nodup_singleton _, by
          intro a ha hb
          rw [List.mem_singleton] at hb
          subst hb
          exact hc ha⟩
    · intro e he
      refine ⟨addToGroup_members q k _ ind
        (fun g hg => (imem g hg).1) hnone e he, ?_⟩
      exact addToGroup_nonempty _ _ _ (fun g hg => (imem g hg).2) e he
    · intro r
      rw [hkeys]
      by_cases hc : rootOf q k ∈
          (((List.range k).foldl groupStep (q, [])).2).map Prod.fst
      · rw [if_pos hc]
        constructor
        · intro hr
          obtain ⟨i, hi, hri⟩ := (icov r).1 hr
          exact ⟨i, by omega, hri⟩
        · rintro ⟨i, hi, hri⟩
          rcases Nat.lt_or_ge i k with h | h
          · exact (icov r).2 ⟨i, h, hri⟩
          · have : i = k := by omega
            subst this
            rw [← hri]
            exact hc
      · rw [if_neg hc, List.mem_append, List.mem_singleton]
        constructor
        · rintro (hr | rfl)
          · obtain ⟨i, hi, hri⟩ := (icov r).1 hr
            exact ⟨i, by omega, hri⟩
          · exact ⟨k, by omega, rfl⟩
        · rintro ⟨i, hi, hri⟩
          rcases Nat.lt_or_ge i k with h | h
          · exact Or.inl ((icov r).2 ⟨i, h, hri⟩)
          · have : i = k := by omega
            subst this
            exact Or.inr hri.symm

lemma mem_pairsList (E : List (List ℚ)) (t : ℚ) (u v : ℕ) :
    (u, v) ∈ pairsList E t ↔
      u < E.length ∧ v < E.length ∧ t ≤ simMat E u v := by
  unfold pairsList
  simp only [List.mem_flatMap, List.mem_filterMap, List.mem_range]
  constructor
  · rintro ⟨i, hi, j, hj, hf⟩
    by_cases hc : t ≤ simMat E i j
    · rw [if_pos hc] at hf
      obtain ⟨rfl, rfl⟩ := Prod.mk.injEq _ _ _ _ ▸ (Option.some_injective _ hf)
      exact ⟨hi, hj, hc⟩
    · rw [if_neg hc] at hf
      cases hf
  · rintro ⟨hu, hv, ht⟩
    exact ⟨u, hu, v, hv, by rw [if_pos ht]⟩

lemma adj_symm (E : List (List ℚ)) (t : ℚ) (u v : ℕ) (h : Adj E t u v) :
    Adj E t v u := by
  obtain ⟨hu, hv, hne, ht⟩ := h
  exact ⟨hv, hu, fun hc => hne hc.symm, by rwa [dot_comm]⟩

lemma pairRel_pairsList_iff (E : List (List ℚ)) (t : ℚ) (u v : ℕ) :
    pairRel (pairsList E t) u v ↔ Adj E t u v := by
  unfold pairRel Adj
  rw [mem_pairsList, mem_pairsList]
  constructor
  · rintro (⟨⟨hu, hv, ht⟩, hlt⟩ | ⟨⟨hv, hu, ht⟩, hlt⟩)
    · refine ⟨hu, hv, by omega, ?_⟩
      unfold simMat at ht
      rwa [if_neg (by omega)] at ht
    · refine ⟨hu, hv, by omega, ?_⟩
      unfold simMat at ht
      rw [if_neg (by omega)] at ht
      rwa [dot_comm] at ht
  · rintro ⟨hu, hv, hne, ht⟩
    rcases Nat.lt_or_ge u v with h | h
    · refine Or.inl ⟨⟨hu, hv, ?_⟩, h⟩
      unfold simMat
      rwa [if_neg (by omega)]
    · refine Or.inr ⟨⟨hv, hu, ?_⟩, by omega⟩
      unfold simMat
      rw [if_neg (by omega), dot_comm]
      exact ht

lemma pairsList_bounds (E : List (List ℚ)) (t : ℚ) :
    ∀ ij ∈ pairsList E t, ij.1 < E.length ∧ ij.2 < E.length := by
  rintro ⟨u, v⟩ hm
  obtain ⟨h1, h2, _⟩ := (mem_pairsList E t u v).1 hm
  exact ⟨h1, h2⟩

lemma parentFinal_spec (E : List (List ℚ)) (t : ℚ) :
    Wf (processPairs (pairsList E t) (List.range E.length)) ∧
      (processPairs (pairsList E t) (List.range E.length)).length = E.length ∧
      ∀ y z, (rootOf (processPairs (pairsList E t) (List.range E.length)) y =
          rootOf (processPairs (pairsList E t) (List.range E.length)) z ↔
        Conn E t y z) := by
  obtain ⟨w1, w2, w3⟩ := processPairs_spec (pairsList E t) (List.range E.length)
    (wf_range _) (by rw [List.length_range]; exact pairsList_bounds E t)
  refine ⟨w1, by rw [w2, List.length_range], fun y z => ?_⟩
  rw [w3 y z]
  unfold Conn
  constructor
  · refine eqvGen_of_eqvGen fun u v huv => ?_
    rcases huv with huv | huv
    · rw [rootOf_range, rootOf_range] at huv
      subst huv
      exact Relation.EqvGen.refl u
    · exact Relation.EqvGen.rel u v ((pairRel_pairsList_iff E t u v).1 huv)
  · exact eqvGen_of_eqvGen fun u v huv =>
      Relation.EqvGen.rel u v (Or.inr ((pairRel_pairsList_iff E t u v).2 huv))

lemma findDuplicateClusters_def (E : List (List ℚ)) (t : ℚ) :
    findDuplicateClusters E t =
      sortGE (fun a b => decide (b.length ≤ a.length))
        (((((List.range E.length).foldl groupStep
              (processPairs (pairsList E t) (List.range E.length), [])).2).map
            Prod.snd).filter fun m => 1 < m.length) := rfl

lemma exists_ne_mem_of_one_lt_length (m : List ℕ) (hnd : m.Nodup)
    (hlen : 1 < m.length) (i : ℕ) (hi : i ∈ m) : ∃ j ∈ m, j ≠ i := by
  match m, hnd, hlen with
  | a :: b :: rest, hnd, _ =>
    by_cases hia : i = a
    · refine ⟨b, List.mem_cons.2 (Or.inr (List.mem_cons_self _ _)), ?_⟩
      rcases List.pairwise_cons.1 hnd with ⟨hab, _⟩
      intro hc
      exact hab b (List.mem_cons_self _ _) (hia.symm.trans hc.symm)
    · exact ⟨a, List.mem_cons_self _ _, fun hc => hia hc.symm⟩

lemma one_lt_length_of_two_mem (m : List ℕ) (i j : ℕ) (hi : i ∈ m) (hj : j ∈ m)
    (hne : i ≠ j) : 1 < m.length := by
  match m, hi, hj with
  | [a], hi, hj =>
    rw [List.mem_singleton] at hi hj
    exact absurd (hi.trans hj.symm) hne
  | a :: b :: rest, _, _ => simp

lemma conn_neighbor (E : List (List ℚ)) (t : ℚ) :
    ∀ u v, Conn E t u v → u ≠ v →
      (∃ w, Adj E t u w) ∧ ∃ w, Adj E t v w := by
  intro u v hconn
  induction hconn with
  | rel a b hab => exact fun _ => ⟨⟨b, hab⟩, ⟨a, adj_symm E t a b hab⟩⟩
  | refl a => exact fun hc => absurd rfl hc
  | symm a b _ ih => exact fun hne => ⟨(ih (fun hc => hne hc.symm)).2,
      (ih (fun hc => hne hc.symm)).1⟩
  | trans a b c _ _ ih1 ih2 =>
    intro hac
    by_cases hab : a = b
    · subst hab
      by_cases hbc : a = c
      · exact absurd hbc hac
      · exact ih2 hbc
    · by_cases hbc : b = c
      · subst hbc
        exact ih1 hab
      · exact ⟨(ih1 hab).1, (ih2 hbc).2⟩

lemma clusters_char (E : List (List ℚ)) (t : ℚ) :
    ∀ m ∈ findDuplicateClusters E t,
      m.Nodup ∧ 2 ≤ m.length ∧
        ∃ r ∈ m, ∀ i, (i ∈ m ↔ i < E.length ∧ Conn E t i r) := by
  obtain ⟨pw, plen, piff⟩ := parentFinal_spec E t
  obtain ⟨gw, gl, gr, gnd, gmem, gcov⟩ :=
    groupPass_spec (processPairs (pairsList E t) (List.range E.length)) pw
      E.length
  intro m hm
  rw [findDuplicateClusters_def, mem_sortGE, List.mem_filter] at hm
  obtain ⟨hmv, hlen⟩ := hm
  rw [List.mem_map] at hmv
  obtain ⟨e, he, hme⟩ := hmv
  obtain ⟨hefil, hene⟩ := gmem e he
  simp only [decide_eq_true_eq] at hlen
  subst hme
  refine ⟨?_, by omega, ?_⟩
  · rw [hefil]
    exact (List.nodup_range E.length).filter _
  · obtain ⟨i0, hi0⟩ := List.exists_mem_of_ne_nil e.2 hene
    have hi0' := hi0
    rw [hefil, List.mem_filter, List.mem_range, decide_eq_true_eq] at hi0'
    obtain ⟨hi0lt, hi0root⟩ := hi0'
    have hroot_e : rootOf (processPairs (pairsList E t) (List.range E.length))
        e.1 = e.1 := by
      rw [← hi0root]
      exact rootOf_rootOf _ i0 pw
    have helt : e.1 < E.length := by
      have := rootOf_lt (processPairs (pairsList E t) (List.range E.length)) i0
        pw (by rwa [plen])
      rw [hi0root] at this
      rwa [plen] at this
    have hmem_iff : ∀ i, i ∈ e.2 ↔ i < E.length ∧ Conn E t i e.1 := by
      intro i
      rw [hefil, List.mem_filter, List.mem_range, decide_eq_true_eq]
      constructor
      · rintro ⟨hilt, hiroot⟩
        refine ⟨hilt, ?_⟩
        rw [← piff i e.1]
        rw [hiroot, hroot_e]
      · rintro ⟨hilt, hconn⟩
        refine ⟨hilt, ?_⟩
        have := (piff i e.1).2 hconn
        rw [hroot_e] at this
        exact this
    refine ⟨e.1, ?_, hmem_iff⟩
    exact (hmem_iff e.1).2 ⟨helt, Relation.EqvGen.refl e.1⟩

lemma clusters_cover (E : List (List ℚ)) (t : ℚ) :
    ∀ i, i < E.length →
      ((∃ m ∈ findDuplicateClusters E t, i ∈ m) ↔ ∃ j, Adj E t i j) := by
  obtain ⟨pw, plen, piff⟩ := parentFinal_spec E t
  obtain ⟨gw, gl, gr, gnd, gmem, gcov⟩ :=
    groupPass_spec (processPairs (pairsList E t) (List.range E.length)) pw
      E.length
  intro i hi
  constructor
  · rintro ⟨m, hm, him⟩
    obtain ⟨hnd, hlen, r, hrm, hiff⟩ := clusters_char E t m hm
    obtain ⟨j, hjm, hji⟩ := exists_ne_mem_of_one_lt_length m hnd (by omega) i him
    have hconn_ir : Conn E t i r := ((hiff i).1 him).2
    have hconn_jr : Conn E t j r := ((hiff j).1 hjm).2
    have hconn_ij : Conn E t i j :=
      Relation.EqvGen.trans i r j hconn_ir (Relation.EqvGen.symm j r hconn_jr)
    exact (conn_neighbor E t i j hconn_ij (fun hc => hji hc.symm)).1
  · rintro ⟨j, hadj⟩
    have hjlt : j < E.length := hadj.2.1
    have hne : i ≠ j := hadj.2.2.1
    have hkey : rootOf (processPairs (pairsList E t) (List.range E.length)) i ∈
        ((((List.range E.length).foldl groupStep
          (processPairs (pairsList E t) (List.range E.length), [])).2).map
            Prod.fst) :=
      (gcov _).2 ⟨i, hi, rfl⟩
    rw [List.mem_map] at hkey
    obtain ⟨e, he, hek⟩ := hkey
    obtain ⟨hefil, _⟩ := gmem e he
    have him : i ∈ e.2 := by
      rw [hefil, List.mem_filter, List.mem_range]
      exact ⟨by simpa using hi, by rw [hek]; simp⟩
    have hjroot : rootOf (processPairs (pairsList E t) (List.range E.length)) j =
        rootOf (processPairs (pairsList E t) (List.range E.length)) i :=
      (piff j i).2 (Relation.EqvGen.rel j i (adj_symm E t i j hadj))
    have hjm : j ∈ e.2 := by
      rw [hefil, List.mem_filter, List.mem_range]
      refine ⟨by simpa using hjlt, ?_⟩
      rw [hjroot, hek]
      simp
    refine ⟨e.2, ?_, him⟩
    rw [findDuplicateClusters_def, mem_sortGE, List.mem_filter]
    refine ⟨List.mem_map.2 ⟨e, he, rfl⟩, ?_⟩
    simp only [decide_eq_true_eq]
    exact one_lt_length_of_two_mem e.2 i j him hjm hne

lemma clusters_disjoint (E : List (List ℚ)) (t : ℚ) :
    (findDuplicateClusters E t).Pairwise
      (fun m₁ m₂ => ∀ i, i ∈ m₁ → i ∉ m₂) := by
  obtain ⟨pw, plen, piff⟩ := parentFinal_spec E t
  obtain ⟨gw, gl, gr, gnd, gmem, gcov⟩ :=
    groupPass_spec (processPairs (pairsList E t) (List.range E.length)) pw
      E.length
  have hkeysne : (((List.range E.length).foldl groupStep
      (processPairs (pairsList E t) (List.range E.length), [])).2).Pairwise
      (fun e f => e.1 ≠ f.1) := List.pairwise_map.1 gnd
  have hentries : (((List.range E.length).foldl groupStep
      (processPairs (pairsList E t) (List.range E.length), [])).2).Pairwise
      (fun e f => ∀ i, i ∈ e.2 → i ∉ f.2) := by
    refine hkeysne.imp_of_mem ?_
    intro e f he hf hne i hie hif
    obtain ⟨hefil, _⟩ := gmem e he
    obtain ⟨hffil, _⟩ := gmem f hf
    rw [hefil, List.mem_filter, decide_eq_true_eq] at hie
    rw [hffil, List.mem_filter, decide_eq_true_eq] at hif
    exact hne (hie.2.symm.trans hif.2)
  have hvalues : ((((List.range E.length).foldl groupStep
      (processPairs (pairsList E t) (List.range E.length), [])).2).map
        Prod.snd).Pairwise (fun m₁ m₂ => ∀ i, i ∈ m₁ → i ∉ m₂) :=
    List.pairwise_map.2 hentries
  rw [findDuplicateClusters_def]
  rw [List.Perm.pairwise_iff
    (fun {m₁ m₂} h i hif hig => h i hig hif) (sortGE_perm _ _)]
  exact List.Pairwise.sublist (List.filter_sublist _) hvalues

lemma adj_mono (E : List (List ℚ)) {t1 t2 : ℚ} (h : t2 ≤ t1) (u v : ℕ) :
    Adj E t1 u v → Adj E t2 u v := by
  rintro ⟨hu, hv, hne, ht⟩
  exact ⟨hu, hv, hne, le_trans h ht⟩

lemma conn_mono (E : List (List ℚ)) {t1 t2 : ℚ} (h : t2 ≤ t1) {u v : ℕ} :
    Conn E t1 u v → Conn E t2 u v :=
  eqvGen_of_eqvGen fun a b hab => Relation.EqvGen.rel a b (adj_mono E h a b hab)

lemma eval_pairs_ones_one : pairsList [[(1:ℚ)], [1]] 1 = [(0, 1), (1, 0)] := by
  norm_num [pairsList, simMat, dot, List.range_succ, List.filterMap_cons]

lemma eval_clusters_ones_one : findDuplicateClusters [[(1:ℚ)], [1]] 1 = [[0, 1]] := by
  rw [findDuplicateClusters_def, eval_pairs_ones_one]
  decide

lemma eval_pairs_ones_negone :
    pairsList [[(1:ℚ)], [1]] (-1) = [(0, 0), (0, 1), (1, 0), (1, 1)] := by
  norm_num [pairsList, simMat, dot, List.range_succ, List.filterMap_cons]

lemma eval_clusters_ones_negone :
    findDuplicateClusters [[(1:ℚ)], [1]] (-1) = [[0, 1]] := by
  rw [findDuplicateClusters_def, eval_pairs_ones_negone]
  decide

/-- Claim C1: on any embedding matrix of unit-normalized rows and any
threshold, `_find_duplicate_clusters` returns exactly the connected components
of size at least two of the graph whose edges are the pairs `i < j` with
similarity at least the threshold: every returned cluster is a full
connectivity class of size at least two, a chunk appears in some returned
cluster exactly when it has a qualifying neighbour, the returned clusters are
pairwise disjoint, and two adjacencies `A~B`, `B~C` put `A`, `B`, `C` together
in one returned cluster even when `A` and `C` are not adjacent. -/
theorem c1_clusters_are_components (E : List (List ℚ)) (t : ℚ)
    (_hunit : ∀ row ∈ E, dot row row = 1) :
    (∀ m ∈ findDuplicateClusters E t, m.Nodup ∧ 2 ≤ m.length ∧
      ∃ r ∈ m, ∀ i, (i ∈ m ↔ i < E.length ∧ Conn E t i r)) ∧
    (∀ i, i < E.length →
      ((∃ m ∈ findDuplicateClusters E t, i ∈ m) ↔ ∃ j, Adj E t i j)) ∧
    (findDuplicateClusters E t).Pairwise
      (fun m₁ m₂ => ∀ i, i ∈ m₁ → i ∉ m₂) ∧
    (∀ a b c, Adj E t a b → Adj E t b c →
      ∃ m ∈ findDuplicateClusters E t, a ∈ m ∧ b ∈ m ∧ c ∈ m) := by
  refine ⟨clusters_char E t, clusters_cover E t, clusters_disjoint E t, ?_⟩
  intro a b c hab hbc
  obtain ⟨m, hm, ham⟩ :=
    ((clusters_cover E t a hab.1).2 ⟨b, hab⟩)
  obtain ⟨hnd, hlen, r, hrm, hiff⟩ := clusters_char E t m hm
  have hconn_ar : Conn E t a r := ((hiff a).1 ham).2
  have hbm : b ∈ m := (hiff b).2 ⟨hab.2.1,
    Relation.EqvGen.trans b a r
      (Relation.EqvGen.rel b a (adj_symm E t a b hab)) hconn_ar⟩
  have hcm : c ∈ m := (hiff c).2 ⟨hbc.2.1,
    Relation.EqvGen.trans c b r
      (Relation.EqvGen.rel c b (adj_symm E t b c hbc)) (((hiff b).1 hbm).2)⟩
  exact ⟨m, hm, ham, hbm, hcm⟩

/-- Witness for C1 at a concrete unit-row matrix: rows `(4/5, 3/5)`,
`(3/5, 4/5)`, `(0, 1)` at threshold `7/10` have adjacent pairs `(0,1)` and
`(1,2)` but not `(0,2)`, and all three indices land in one returned cluster. -/
theorem c1_clusters_are_components_witness :
    ∃ m ∈ findDuplicateClusters
      [[4/5, 3/5], [3/5, 4/5], [0, 1]] (7/10),
      0 ∈ m ∧ 1 ∈ m ∧ 2 ∈ m :=
  (c1_clusters_are_components [[4/5, 3/5], [3/5, 4/5], [0, 1]] (7/10)
      (by intro row hrow; fin_cases hrow <;> norm_num [dot])).2.2.2 0 1 2
    (by refine ⟨by norm_num, by norm_num, by norm_num, ?_⟩; norm_num [dot])
    (by refine ⟨by norm_num, by norm_num, by norm_num, ?_⟩; norm_num [dot])

/-- Claim C4: raising the clustering threshold refines the partition: every
cluster found at the higher threshold is contained in a single cluster found at
the lower threshold. -/
theorem c4_threshold_monotone (E : List (List ℚ)) (t1 t2 : ℚ) (h : t2 < t1) :
    ∀ m1 ∈ findDuplicateClusters E t1,
      ∃ m2 ∈ findDuplicateClusters E t2, ∀ i ∈ m1, i ∈ m2 := by
  intro m1 hm1
  obtain ⟨hnd, hlen, r, hrm, hiff⟩ := clusters_char E t1 m1 hm1
  have hrlt : r < E.length := ((hiff r).1 hrm).1
  obtain ⟨j, hadj⟩ := (clusters_cover E t1 r hrlt).1 ⟨m1, hm1, hrm⟩
  have hadj2 : Adj E t2 r j := adj_mono E (le_of_lt h) r j hadj
  obtain ⟨m2, hm2, hrm2⟩ := (clusters_cover E t2 r hrlt).2 ⟨j, hadj2⟩
  obtain ⟨hnd2, hlen2, r2, hr2m, hiff2⟩ := clusters_char E t2 m2 hm2
  have hconn_r_r2 : Conn E t2 r r2 := ((hiff2 r).1 hrm2).2
  refine ⟨m2, hm2, fun i him => ?_⟩
  have hi := (hiff i).1 him
  refine (hiff2 i).2 ⟨hi.1, ?_⟩
  exact Relation.EqvGen.trans i r r2 (conn_mono E (le_of_lt h) hi.2) hconn_r_r2

/-- Witness for C4: at thresholds `9/10 > 1/2` on the same three unit rows,
the cluster `[0, 1]` found at the higher threshold is contained in a cluster
found at the lower threshold. -/
theorem c4_threshold_monotone_witness :
    ∃ m2 ∈ findDuplicateClusters [[(1:ℚ)], [1]] 0, ∀ i ∈ [0, 1], i ∈ m2 :=
  c4_threshold_monotone [[(1:ℚ)], [1]] 1 0 (by norm_num) [0, 1]
    (by rw [eval_clusters_ones_one]; exact List.mem_singleton.2 rfl)

lemma dot_eq_sum (u v : List ℚ) :
    dot u v = ∑ i ∈ Finset.range (min u.length v.length),
      u.getD i 0 * v.getD i 0 := by
  induction u generalizing v with
  | nil => simp [dot]
  | cons a u ih =>
    cases v with
    | nil => simp [dot]
    | cons b v =>
      have hcons : dot (a :: u) (b :: v) = a * b + dot u v := by
        simp [dot]
      rw [hcons, ih v, List.length_cons, List.length_cons, Nat.succ_min_succ,
        Finset.sum_range_succ']
      simp [add_comm]

lemma dot_self_eq_sum_sq (w : List ℚ) :
    dot w w = ∑ i ∈ Finset.range w.length, w.getD i 0 ^ 2 := by
  rw [dot_eq_sum, min_self]
  exact Finset.sum_congr rfl fun i _ => (pow_two _).symm

lemma dot_le_one (u v : List ℚ) (hu : dot u u = 1) (hv : dot v v = 1) :
    dot u v ≤ 1 := by
  have hsub : ∀ (w : List ℚ) (k : ℕ), k ≤ w.length →
      ∑ i ∈ Finset.range k, w.getD i 0 ^ 2 ≤ dot w w := by
    intro w k hk
    rw [dot_self_eq_sum_sq w]
    exact Finset.sum_le_sum_of_subset_of_nonneg (Finset.range_subset.2 hk)
      fun i _ _ => sq_nonneg _
  have h1 := hsub u (min u.length v.length) (min_le_left _ _)
  have h2 := hsub v (min u.length v.length) (min_le_right _ _)
  rw [hu] at h1
  rw [hv] at h2
  have hnn : (0 : ℚ) ≤ ∑ i ∈ Finset.range (min u.length v.length),
      v.getD i 0 ^ 2 :=
    Finset.sum_nonneg fun i _ => sq_nonneg _
  have hsq : dot u v ^ 2 ≤ 1 := by
    rw [dot_eq_sum]
    calc (∑ i ∈ Finset.range (min u.length v.length),
          u.getD i 0 * v.getD i 0) ^ 2
        ≤ (∑ i ∈ Finset.range (min u.length v.length), u.getD i 0 ^ 2) *
          ∑ i ∈ Finset.range (min u.length v.length), v.getD i 0 ^ 2 :=
          Finset.sum_mul_sq_le_sq_mul_sq _ _ _
      _ ≤ 1 * 1 := mul_le_mul h1 h2 hnn zero_le_one
      _ = 1 := one_mul 1
  have habs := (sq_le_one_iff_abs_le_one (dot u v)).1 hsq
  exact (abs_le.1 habs).2

/-- Claim C6: on unit-normalized rows (exact arithmetic) any threshold
strictly above one yields no clusters: no pair of distinct rows can reach a
similarity above one, so no union happens and every group is a discarded
singleton. -/
theorem c6_threshold_above_one (E : List (List ℚ)) (t : ℚ)
    (hunit : ∀ row ∈ E, dot row row = 1) (ht : 1 < t) :
    findDuplicateClusters E t = [] := by
  cases hres : findDuplicateClusters E t with
  | nil => rfl
  | cons m rest =>
    exfalso
    have hm : m ∈ findDuplicateClusters E t := by
      rw [hres]
      exact List.mem_cons_self _ _
    obtain ⟨hnd, hlen, r, hrm, hiff⟩ := clusters_char E t m hm
    obtain ⟨j, hjm, hjr⟩ := exists_ne_mem_of_one_lt_length m hnd (by omega) r hrm
    have hconn : Conn E t j r := ((hiff j).1 hjm).2
    obtain ⟨⟨w, hadj⟩, -⟩ := conn_neighbor E t j r hconn hjr
    obtain ⟨hjlt, hwlt, hne, hsim⟩ := hadj
    have hju : dot (E.getD j []) (E.getD j []) = 1 :=
      hunit _ (List.getD_eq_getElem E [] hjlt ▸ List.getElem_mem hjlt)
    have hwu : dot (E.getD w []) (E.getD w []) = 1 :=
      hunit _ (List.getD_eq_getElem E [] hwlt ▸ List.getElem_mem hwlt)
    have := dot_le_one (E.getD j []) (E.getD w []) hju hwu
    linarith

/-- Witness for C6: two unit rows at threshold 2 produce no clusters. -/
theorem c6_threshold_above_one_witness :
    findDuplicateClusters [[(1:ℚ), 0], [0, 1]] 2 = [] :=
  c6_threshold_above_one [[(1:ℚ), 0], [0, 1]] 2
    (by intro row hrow; fin_cases hrow <;> norm_num [dot]) (by norm_num)

/-- Counterexample to claim C7: `_find_duplicate_clusters` performs no
threshold validation whatever -- no `InvalidThresholdError` (or any exception)
exists anywhere in the repository -- so at the non-positive threshold `-1` the
call simply runs the clustering and returns a normal result instead of failing
fast. -/
theorem c7_counterexample :
    ((-1 : ℚ) ≤ 0) ∧ findDuplicateClusters [[(1:ℚ)], [1]] (-1) = [[0, 1]] :=
  ⟨by norm_num, eval_clusters_ones_negone⟩

/-- Claim C7 (amended): a threshold at most zero is not rejected: the call
raises nothing and returns, with the usual semantics, the size-at-least-two
connected components of the graph whose edges are the pairs with similarity at
least that threshold. -/
theorem c7_amended_nonpositive_threshold (E : List (List ℚ)) (t : ℚ)
    (_ht : t ≤ 0) :
    (∀ m ∈ findDuplicateClusters E t, 2 ≤ m.length ∧
      ∃ r ∈ m, ∀ i, (i ∈ m ↔ i < E.length ∧ Conn E t i r)) ∧
    ∀ i, i < E.length →
      ((∃ m ∈ findDuplicateClusters E t, i ∈ m) ↔ ∃ j, Adj E t i j) := by
  refine ⟨fun m hm => ?_, clusters_cover E t⟩
  obtain ⟨_, hlen, hr⟩ := clusters_char E t m hm
  exact ⟨hlen, hr⟩

/-- Witness for the amended C7: at threshold `-1` on two identical unit rows
the call returns a cluster containing chunk 0. -/
theorem c7_amended_nonpositive_threshold_witness :
    ∃ m ∈ findDuplicateClusters [[(1:ℚ)], [1]] (-1), 0 ∈ m :=
  ((c7_amended_nonpositive_threshold [[(1:ℚ)], [1]] (-1) (by norm_num)).2 0
    (by norm_num)).2 ⟨1, by norm_num, by norm_num, by decide, by norm_num [dot]⟩

/-- Claim C9: on an index of zero chunks both `_find_duplicate_clusters` and
`_find_contradictions` return empty lists; being total functions of their
inputs, they raise nothing. -/
theorem c9_empty_index :
    (∀ t : ℚ, findDuplicateClusters [] t = []) ∧
      ∀ (th : ℚ) (mh : ℤ) (tk : ℕ), findContradictions [] [] th mh tk = [] :=
  ⟨fun _ => rfl, fun _ _ _ => rfl⟩

/-- Claim C10: starting from the identity parent array, after any finite
sequence of `union` calls on valid indices the parent list still encodes a
forest: every index reaches a self-parented root within `length` parent steps,
the path-halving `find` loop terminates (any fuel of at least `length` gives
the same result as the chosen fuel, so the while loop ends), and `find`
returns a root; hence the whole clustering pass is a total function of its
inputs. -/
theorem c10_unionfind_forest_and_find_total (n : ℕ) (p : List ℕ)
    (hreach : ReachesUF n p) :
    p.length = n ∧ Wf p ∧
      (∀ x, IsRoot p ((pstep p)^[p.length] x)) ∧
      (∀ x fuel, p.length ≤ fuel → findAux fuel p x = find p x) ∧
      ∀ x, IsRoot p (find p x).1 := by
  have hbase : p.length = n ∧ Wf p := by
    induction hreach with
    | init => exact ⟨List.length_range n, wf_range n⟩
    | step q a b ha hb _ ih =>
      obtain ⟨hlen, hwf⟩ := ih
      obtain ⟨w1, w2, _⟩ := union_spec q a b hwf (by omega) (by omega)
      exact ⟨w2.trans hlen, w1⟩
  obtain ⟨hlen, hwf⟩ := hbase
  refine ⟨hlen, hwf, fun x => hwf.2 x, fun x fuel hfuel => ?_, fun x => ?_⟩
  · exact findAux_fuel_eq (hgt p x) p x fuel p.length hwf le_rfl
      (le_trans (hgt_le_length p x) hfuel) (hgt_le_length p x)
  · rw [(find_spec p x hwf).1]
    exact hwf.2 x

/-- Witness for C10 at a concrete reachable state: after `union 0 1` on the
identity array of size 3, `find` returns a root for index 2. -/
theorem c10_unionfind_forest_and_find_total_witness :
    IsRoot (union (List.range 3) 0 1) ((find (union (List.range 3) 0 1) 2).1) :=
  (c10_unionfind_forest_and_find_total 3 (union (List.range 3) 0 1)
    (ReachesUF.step (List.range 3) 0 1 (by decide) (by decide)
      ReachesUF.init)).2.2.2.2 2

lemma prefOf_iff (t : List Char) : ∀ s, prefOf t s = true ↔ ∃ u, t ++ u = s := by
  induction t with
  | nil => intro s; simp [prefOf]
  | cons a as ih =>
    intro s
    cases s with
    | nil =>
      simp only [prefOf]
      constructor
      · intro h
        cases h
      · rintro ⟨u, hu⟩
        cases hu
    | cons b bs =>
      simp only [prefOf, Bool.and_eq_true, decide_eq_true_eq, ih bs]
      constructor
      · rintro ⟨rfl, u, rfl⟩
        exact ⟨u, rfl⟩
      · rintro ⟨u, hu⟩
        rw [List.cons_append] at hu
        obtain ⟨rfl, rfl⟩ := List.cons.injEq .. ▸ hu
        exact ⟨rfl, u, rfl⟩

lemma border_of_overlap (t s : List Char) (p : ℕ) (hp : 0 < p)
    (hpt : p < t.length) (h1 : prefOf t s = true)
    (h2 : prefOf t (s.drop p) = true) :
    t.take (t.length - p) = t.drop p := by
  obtain ⟨u, hu⟩ := (prefOf_iff t s).1 h1
  obtain ⟨w, hw⟩ := (prefOf_iff t (s.drop p)).1 h2
  have hdrop : s.drop p = t.drop p ++ u := by
    rw [← hu, List.drop_append_of_le_length (le_of_lt hpt)]
  have hkey : t.drop p ++ u = t ++ w := by
    rw [← hdrop, hw]
  have htake := congrArg (List.take (t.length - p)) hkey
  rw [List.take_append_of_le_length (by rw [List.length_drop]),
    List.take_append_of_le_length (by omega),
    List.take_of_length_le (by rw [List.length_drop])] at htake
  exact htake.symm

lemma occCount_drop (t : List Char) :
    ∀ (m : ℕ) (s : List Char),
      (∀ q, q < m → prefOf t (s.drop q) = false) →
      occCountAux t s = occCountAux t (s.drop m) := by
  intro m
  induction m with
  | zero => intro s _; rfl
  | succ m ih =>
    intro s h
    cases s with
    | nil => simp
    | cons c cs =>
      have h0 : prefOf t (c :: cs) = false := by
        have := h 0 (by omega)
        simpa using this
      have hrec : occCountAux t (c :: cs) = occCountAux t cs := by
        simp [occCountAux, h0]
      rw [hrec, List.drop_succ_cons]
      refine ih cs fun q hq => ?_
      have := h (q + 1) (by omega)
      rwa [List.drop_succ_cons] at this

lemma pyCountF_eq_occCount (t : List Char) (hne : t ≠ []) (hb : borderlessT t) :
    ∀ (f : ℕ) (s : List Char), s.length ≤ f →
      pyCountF t f s = occCountAux t s := by
  intro f
  induction f with
  | zero =>
    intro s hs
    have hnil : s = [] := List.length_eq_zero.1 (by omega)
    subst hnil
    rfl
  | succ f ih =>
    intro s hs
    cases s with
    | nil => rfl
    | cons c cs =>
      rw [List.length_cons] at hs
      have hL : 1 ≤ t.length := by
        cases t with
        | nil => exact absurd rfl hne
        | cons a as => simp
      by_cases hpre : prefOf t (c :: cs) = true
      · have hstep : pyCountF t (f + 1) (c :: cs) =
            1 + pyCountF t f (List.drop (t.length - 1) cs) := by
          simp [pyCountF, hpre]
        have hocc : occCountAux t (c :: cs) = 1 + occCountAux t cs := by
          simp [occCountAux, hpre]
        have hnocc : ∀ q, q < t.length - 1 → prefOf t (cs.drop q) = false := by
          intro q hq
          by_contra hcon
          rw [Bool.not_eq_false] at hcon
          rw [← List.drop_succ_cons (a := c) (l := cs) (n := q)] at hcon
          have hborder := border_of_overlap t (c :: cs) (q + 1) (by omega)
            (by omega) hpre hcon
          refine hb (t.length - (q + 1)) (by omega) (by omega) ?_
          rw [(by omega : t.length - (t.length - (q + 1)) = q + 1)]
          exact hborder
        have hskip := occCount_drop t (t.length - 1) cs hnocc
        have hlen : (List.drop (t.length - 1) cs).length ≤ f := by
          rw [List.length_drop]
          omega
        rw [hstep, ih _ hlen, ← hskip, hocc]
      · have hstep : pyCountF t (f + 1) (c :: cs) = pyCountF t f cs := by
          simp [pyCountF, hpre]
        have hocc : occCountAux t (c :: cs) = occCountAux t cs := by
          simp [occCountAux, hpre]
        rw [hstep, ih cs (by omega), hocc]

lemma pyCount_eq_occCount (t s : List Char) (hne : t ≠ [])
    (hb : borderlessT t) : pyCountAux t s = occCountAux t s :=
  pyCountF_eq_occCount t hne hb s.length s le_rfl

/-- Counterexample to claim C3: on the text `deniedenied` the two overlapping
occurrences of the bordered term `denied` are counted once by Python's
non-overlapping `str.count`, so with `minHits = 2` the source returns 0 while
the claim's occurrence-count rule returns -1. -/
theorem c3_counterexample :
    polaritySign ("deniedenied".data) 2 = 0 ∧
      polaritySignOccSpec ("deniedenied".data) 2 = -1 :=
  ⟨by decide, by decide⟩

/-- Claim C3 (amended): `_polarity_sign` computes `pos` as the total count of
case-insensitive substring occurrences of the affirmation terms and `neg`
likewise for the negation terms, except that occurrences of `denied` -- the
only term with a self-overlap border -- are counted non-overlapping (Python
`str.count`); the sign rule is as claimed: `+1` when `pos - neg >= minHits`,
`-1` when `pos - neg <= -minHits`, else `0`.  Moreover the
`_polarity_counts`/`_polarity_sign` pair of `build_inconsistency_visuals.py`
computes the same sign. -/
theorem c3_amended_polarity_rule (text : List Char) (m : ℤ) (_hm : 1 ≤ m) :
    polaritySign text m =
      (if m ≤ (AFFIRM_TERMS.map (fun t => (occCountAux t (lowerL text) : ℤ))).sum -
            (NEGATION_TERMS.map (fun t =>
              if t = "denied".data then (pyCountAux t (lowerL text) : ℤ)
              else (occCountAux t (lowerL text) : ℤ))).sum
        then 1
        else if (AFFIRM_TERMS.map (fun t => (occCountAux t (lowerL text) : ℤ))).sum -
            (NEGATION_TERMS.map (fun t =>
              if t = "denied".data then (pyCountAux t (lowerL text) : ℤ)
              else (occCountAux t (lowerL text) : ℤ))).sum ≤ -m
        then -1 else 0) ∧
      polaritySignB (polarityCounts text).1 (polarityCounts text).2 m =
        polaritySign text m := by
  constructor
  · have hpos : (AFFIRM_TERMS.map (fun t => (pyCountAux t (lowerL text) : ℤ))).sum =
        (AFFIRM_TERMS.map (fun t => (occCountAux t (lowerL text) : ℤ))).sum := by
      congr 1
      refine List.map_congr_left fun t ht => ?_
      fin_cases ht <;>
        rw [pyCount_eq_occCount _ _ (by decide) (by decide)]
    have hneg : (NEGATION_TERMS.map (fun t => (pyCountAux t (lowerL text) : ℤ))).sum =
        (NEGATION_TERMS.map (fun t =>
          if t = "denied".data then (pyCountAux t (lowerL text) : ℤ)
          else (occCountAux t (lowerL text) : ℤ))).sum := by
      congr 1
      refine List.map_congr_left fun t ht => ?_
      fin_cases ht
      · rw [if_neg (by decide), pyCount_eq_occCount _ _ (by decide) (by decide)]
      · rw [if_neg (by decide), pyCount_eq_occCount _ _ (by decide) (by decide)]
      · rw [if_neg (by decide), pyCount_eq_occCount _ _ (by decide) (by decide)]
      · rw [if_pos (by decide)]
      · rw [if_neg (by decide), pyCount_eq_occCount _ _ (by decide) (by decide)]
      · rw [if_neg (by decide), pyCount_eq_occCount _ _ (by decide) (by decide)]
      · rw [if_neg (by decide), pyCount_eq_occCount _ _ (by decide) (by decide)]
      · rw [if_neg (by decide), pyCount_eq_occCount _ _ (by decide) (by decide)]
      · rw [if_neg (by decide), pyCount_eq_occCount _ _ (by decide) (by decide)]
      · rw [if_neg (by decide), pyCount_eq_occCount _ _ (by decide) (by decide)]
    simp only [polaritySign]
    rw [hpos, hneg]
  · have hc : ∀ (L : List (List Char)),
        ((L.map (fun t => pyCountAux t (lowerL text))).sum : ℤ) =
          (L.map (fun t => (pyCountAux t (lowerL text) : ℤ))).sum := by
      intro L
      rw [Nat.cast_list_sum, List.map_map]
      rfl
    simp only [polaritySign, polaritySignB, polarityCounts]
    simp only [hc]

/-- Witness for the amended C3 at `minHits = 1` on the text `granted`. -/
theorem c3_amended_polarity_rule_witness :
    polaritySign ("granted".data) 1 = 1 ∧
      polaritySignB (polarityCounts ("granted".data)).1
        (polarityCounts ("granted".data)).2 1 =
        polaritySign ("granted".data) 1 := by
  have h := c3_amended_polarity_rule ("granted".data) 1 (by norm_num)
  refine ⟨?_, h.2⟩
  rw [h.1]
  decide

set_option maxHeartbeats 1000000 in
/-- Claim C2: every edge returned by the contradiction finder joins two chunks
whose polarity signs are both nonzero and of strictly opposite sign (product
negative) and whose similarity reaches the threshold; in particular no edge is
ever returned between two chunks of identical nonzero polarity sign.  The same
guards hold for the edge loop of `_build_contradictions`. -/
theorem c2_contradiction_edges (E : List (List ℚ)) (records : List MRec)
    (th : ℚ) (mh : ℤ) (tk : ℕ) :
    (∀ e ∈ findContradictions E records th mh tk,
      e.exhibit_polarity ≠ 0 ∧ e.filing_polarity ≠ 0 ∧
        e.exhibit_polarity * e.filing_polarity < 0 ∧
        ∃ i ∈ exhibitIndices records, ∃ j ∈ filingIndices records,
          e.exhibit_polarity = polaritySign (records.getD i default).text mh ∧
          e.filing_polarity = polaritySign (records.getD j default).text mh ∧
          th ≤ dot (E.getD i []) (E.getD j [])) ∧
    ∀ (nC : ℕ) (signs : ℕ → ℤ) (label : ℕ → List Char) (simf : ℕ → ℕ → ℚ)
      (maxEdges : ℕ), ∀ e ∈ buildEdges nC signs label simf th maxEdges,
        signs e.1 ≠ 0 ∧ signs e.2.1 ≠ 0 ∧ signs e.1 * signs e.2.1 < 0 ∧
          th ≤ e.2.2 ∧ e.2.2 = simf e.1 e.2.1 ∧ label e.1 ≠ label e.2.1 := by
  constructor
  · intro e he
    unfold findContradictions at he
    by_cases hempty :
        (exhibitIndices records).isEmpty || (filingIndices records).isEmpty
    · rw [if_pos hempty] at he
      cases he
    · rw [if_neg hempty, mem_sortGE, List.mem_flatMap] at he
      obtain ⟨ei, hei, hrow⟩ := he
      unfold contraRow at hrow
      by_cases hsign : polaritySign (records.getD ei default).text mh = 0
      · rw [if_pos hsign] at hrow
        cases hrow
      · rw [if_neg hsign, List.mem_filterMap] at hrow
        obtain ⟨pos, hpos, hpick⟩ := hrow
        have hposlt : pos < (filingIndices records).length := by
          have h1 : pos ∈ argsortDesc (contraScores E (filingIndices records) ei) :=
            List.mem_of_mem_take hpos
          unfold argsortDesc at h1
          rw [mem_sortGE, List.mem_range] at h1
          unfold contraScores at h1
          rwa [List.length_map] at h1
        have hscoreval : (contraScores E (filingIndices records) ei).getD pos 0 =
            dot (E.getD ei []) (E.getD ((filingIndices records).getD pos 0) []) := by
          unfold contraScores
          rw [List.getD_eq_getElem _ _ (by rwa [List.length_map]),
            List.getElem_map, List.getD_eq_getElem _ _ hposlt]
        have hjmem : (filingIndices records).getD pos 0 ∈ filingIndices records := by
          rw [List.getD_eq_getElem _ _ hposlt]
          exact List.getElem_mem hposlt
        simp only [contraPick] at hpick
        split at hpick
        · cases hpick
        · split at hpick
          · cases hpick
          · next hcond hscore =>
            rw [Option.some_inj] at hpick
            subst hpick
            push_neg at hcond
            obtain ⟨hfil0, hprod⟩ := hcond
            rw [not_lt] at hscore
            refine ⟨hsign, hfil0, hprod, ?_⟩
            refine ⟨ei, hei, (filingIndices records).getD pos 0, hjmem, ?_, ?_, ?_⟩
            · rfl
            · rfl
            · rw [← hscoreval]
              exact hscore
  · intro nC signs label simf maxEdges e he
    simp only [buildEdges] at he
    have he' := List.mem_of_mem_take he
    rw [mem_sortGE, List.mem_flatMap] at he'
    obtain ⟨i, _, hrow⟩ := he'
    rw [List.mem_filterMap] at hrow
    obtain ⟨j, _, hpick⟩ := hrow
    split at hpick
    · cases hpick
    · split at hpick
      · cases hpick
      · split at hpick
        · cases hpick
        · split at hpick
          · cases hpick
          · split at hpick
            · cases hpick
            · next hji hlab hzero hppos hscore =>
              rw [Option.some_inj] at hpick
              subst hpick
              push_neg at hzero
              rw [not_lt] at hppos hscore
              refine ⟨hzero.1, hzero.2, ?_, hscore, rfl, hlab⟩
              rcases lt_trichotomy (signs i * signs j) 0 with h | h | h
              · exact h
              · exact absurd (mul_eq_zero.1 h)
                  (by rintro (hc | hc)
                      · exact hzero.1 hc
                      · exact hzero.2 hc)
              · exact absurd h (by omega)

/-- Witness for C2 on the concrete store `c2Recs` with embeddings `[[1], [1]]`,
threshold `1/2`, `min_hits = 2`: both the contradiction finder's edge and the
visual edge loop's edge satisfy the claimed guards. -/
theorem c2_contradiction_edges_witness :
    (c2Edge.exhibit_polarity ≠ 0 ∧ c2Edge.filing_polarity ≠ 0 ∧
      c2Edge.exhibit_polarity * c2Edge.filing_polarity < 0 ∧
      ∃ i ∈ exhibitIndices c2Recs, ∃ j ∈ filingIndices c2Recs,
        c2Edge.exhibit_polarity = polaritySign (c2Recs.getD i default).text 2 ∧
        c2Edge.filing_polarity = polaritySign (c2Recs.getD j default).text 2 ∧
        (1 / 2 : ℚ) ≤ dot (([[1], [1]] : List (List ℚ)).getD i [])
          (([[1], [1]] : List (List ℚ)).getD j [])) ∧
    (c2Signs 0 ≠ 0 ∧ c2Signs 1 ≠ 0 ∧ c2Signs 0 * c2Signs 1 < 0 ∧
      (1 / 2 : ℚ) ≤ 1 ∧ (1 : ℚ) = c2Simf 0 1 ∧ c2Label 0 ≠ c2Label 1) := by
  have hex : exhibitIndices c2Recs = [0] := by decide
  have hfil : filingIndices c2Recs = [1] := by decide
  have hsg0 : polaritySign (c2Recs.getD 0 default).text 2 = 1 := by decide
  have hsd1 : polaritySign (c2Recs.getD 1 default).text 2 = -1 := by decide
  have hscores : contraScores [[1], [1]] [1] 0 = [1] := by
    norm_num [contraScores, dot]
  have hargsort : argsortDesc ([1] : List ℚ) = [0] := rfl
  have hround : pyRound4 1 = 1 := by
    norm_num [pyRound4, roundHalfEven]
  have hpick : contraPick c2Recs [1] [1] (1 / 2) 2 (c2Recs.getD 0 default) 1 0
      = some c2Edge := by
    simp only [contraPick, List.getD_cons_zero, hsd1]
    rw [if_neg (by norm_num)]
    rw [if_neg (by norm_num)]
    rw [hround]
    rfl
  have hrow : contraRow [[1], [1]] c2Recs (1 / 2) 2 5 [1] 0 = [c2Edge] := by
    simp only [contraRow, hsg0]
    rw [if_neg (by norm_num)]
    rw [hscores, hargsort]
    rw [show (([0] : List ℕ).take 5) = [0] from rfl]
    rw [List.filterMap_cons_some hpick, List.filterMap_nil]
  have hlist : findContradictions [[1], [1]] c2Recs (1 / 2) 2 5 = [c2Edge] := by
    simp only [findContradictions, hex, hfil]
    rw [if_neg (by decide)]
    rw [List.flatMap_cons, List.flatMap_nil, hrow]
    rfl
  have hmem : c2Edge ∈ findContradictions [[1], [1]] c2Recs (1 / 2) 2 5 := by
    rw [hlist]
    exact List.mem_singleton_self c2Edge
  have hbe : buildEdges 2 c2Signs c2Label c2Simf (1 / 2) 5
      = [((0 : ℕ), (1 : ℕ), (1 : ℚ))] := by
    norm_num [buildEdges, c2Signs, c2Label, c2Simf, List.range_succ, sortGE,
      insGE]
  have hmem2 : ((0 : ℕ), (1 : ℕ), (1 : ℚ)) ∈ buildEdges 2 c2Signs c2Label
      c2Simf (1 / 2) 5 := by
    rw [hbe]
    exact List.mem_singleton_self _
  exact ⟨(c2_contradiction_edges [[1], [1]] c2Recs (1 / 2) 2 5).1 c2Edge hmem,
    (c2_contradiction_edges [[1], [1]] c2Recs (1 / 2) 2 5).2 2 c2Signs c2Label
      c2Simf 5 ((0 : ℕ), (1 : ℕ), (1 : ℚ)) hmem2⟩

/-- The score list assigns to every index the dot product of its row with the
query; out-of-range indices get the default `0 = dot [] q`. -/
lemma queryScores_getD (E : List (List ℚ)) (q : List ℚ) (i : ℕ) :
    (queryScores E q).getD i 0 = dot (E.getD i []) q := by
  by_cases hi : i < E.length
  · have hi' : i < (queryScores E q).length := by
      simpa [queryScores] using hi
    rw [List.getD_eq_getElem _ _ hi', List.getD_eq_getElem _ _ hi]
    simp [queryScores]
  · have h1 : E.length ≤ i := le_of_not_lt hi
    have h2 : (queryScores E q).length ≤ i := by
      simpa [queryScores] using h1
    rw [List.getD_eq_default _ _ h2, List.getD_eq_default _ _ h1]
    simp [dot]

/-- The emission loop returns the ranked pairs of a sublist of the ranked
order (skips and early stopping only drop elements, never reorder them). -/
lemma queryLoop_eq_map_sublist (metadata : List MRec) (scores : List ℚ)
    (dd : Bool) (tk : ℕ) :
    ∀ (order : List ℕ) (seen : List (List Char)) (count : ℕ),
      ∃ sub : List ℕ, sub.Sublist order ∧
        queryLoop metadata scores dd tk order seen count =
          sub.map fun r => (r, scores.getD r 0) := by
  intro order
  induction order with
  | nil => exact fun seen count => ⟨[], List.nil_sublist _, rfl⟩
  | cons r rest ih =>
    intro seen count
    simp only [queryLoop]
    split
    · exact (ih seen count).imp fun sub h => ⟨h.1.cons r, h.2⟩
    · split
      · exact ⟨[r], (List.nil_sublist rest).cons₂ r, rfl⟩
      · obtain ⟨sub, hsub, heq⟩ := ih (queryKey metadata dd r :: seen) (count + 1)
        exact ⟨r :: sub, hsub.cons₂ r, by rw [heq]; rfl⟩

/-- Counterexample to C5's stable-tie-breaking half: `np.argsort(-scores)`
with the default sort kind guarantees only some permutation of the indices in
non-increasing score order, with the order of equal keys unspecified.  On two
chunks with exactly equal scores, `[1, 0]` is such an admissible order, and
the emission loop then returns the higher-index chunk first, so the program
does not establish the claimed lower-index-first tie order. -/
theorem c5_counterexample :
    IsDescOrder (queryScores [[1], [1]] [1]) [1, 0] ∧
      (queryScores [[1], [1]] [1]).getD 0 0 =
        (queryScores [[1], [1]] [1]).getD 1 0 ∧
      queryLoop [] (queryScores [[1], [1]] [1]) false 2 [1, 0] [] 0
        = [(1, 1), (0, 1)] := by
  have hqs : queryScores [[1], [1]] [1] = [1, 1] := by
    norm_num [queryScores, dot]
  refine ⟨?_, ?_, ?_⟩
  · rw [hqs]
    constructor
    · decide
    · norm_num [List.pairwise_cons, List.getD_cons_zero, List.getD_cons_succ]
  · rw [hqs]
    rfl
  · rw [hqs]
    norm_num [queryLoop, List.getD_cons_zero, List.getD_cons_succ]

/-- Amended C5: for every admissible ranking (any output `np.argsort` may
produce on the negated scores: a permutation of the indices in non-increasing
score order, tie order unspecified for the default sort kind), the emission
loop emits its `(index, score)` pairs in non-increasing score order, and every
emitted score is the dot product of the indexed row with the query vector.
The lower-index-first tie order of the original claim is not guaranteed by
the program. -/
theorem c5_amended_descending_order (E : List (List ℚ)) (metadata : List MRec)
    (q : List ℚ) (tk : ℕ) (dd : Bool) (order : List ℕ)
    (horder : IsDescOrder (queryScores E q) order) :
    (queryLoop metadata (queryScores E q) dd tk order [] 0).Pairwise
        (fun a b => b.2 ≤ a.2) ∧
      ∀ e ∈ queryLoop metadata (queryScores E q) dd tk order [] 0,
        e.2 = dot (E.getD e.1 []) q := by
  obtain ⟨sub, hsub, heq⟩ := queryLoop_eq_map_sublist metadata
    (queryScores E q) dd tk order [] 0
  rw [heq]
  constructor
  · rw [List.pairwise_map]
    exact List.Pairwise.sublist hsub horder.2
  · intro e he
    rw [List.mem_map] at he
    obtain ⟨r, _, rfl⟩ := he
    exact queryScores_getD E q r

/-- Witness for the amended C5 at scores `[1, 1, 2]` and the admissible
descending order `[2, 0, 1]`: the emitted list is non-increasing in score and
the score of the pair `(0, 1)` is the dot product of row 0 with the query. -/
theorem c5_amended_descending_order_witness :
    IsDescOrder (queryScores [[1], [1], [2]] [1]) [2, 0, 1] ∧
      ((queryLoop [] (queryScores [[1], [1], [2]] [1]) false 3 [2, 0, 1]
          [] 0).Pairwise (fun a b => b.2 ≤ a.2) ∧
        ((0 : ℕ), (1 : ℚ)).2 =
          dot (([[1], [1], [2]] : List (List ℚ)).getD ((0 : ℕ), (1 : ℚ)).1 [])
            [1]) := by
  have hqs : queryScores [[1], [1], [2]] [1] = [1, 1, 2] := by
    norm_num [queryScores, dot]
  have hdesc : IsDescOrder (queryScores [[1], [1], [2]] [1]) [2, 0, 1] := by
    rw [hqs]
    constructor
    · decide
    · norm_num [List.pairwise_cons, List.getD_cons_zero, List.getD_cons_succ]
  have h := c5_amended_descending_order [[1], [1], [2]] [] [1] 3 false
    [2, 0, 1] hdesc
  have hloop : queryLoop [] (queryScores [[1], [1], [2]] [1]) false 3 [2, 0, 1]
      [] 0 = [(2, 2), (0, 1), (1, 1)] := by
    rw [hqs]
    norm_num [queryLoop, List.getD_cons_zero, List.getD_cons_succ]
  refine ⟨hdesc, h.1, h.2 ((0 : ℕ), (1 : ℚ)) ?_⟩
  rw [hloop]
  exact List.mem_cons_of_mem _ (List.mem_cons_self _ _)

/-- Counterexample to C8: loading a store with two embedding rows and one
metadata record succeeds (`_load_store` performs no size validation of any
kind), the sizes do differ, and the clustering analysis then runs on the
mismatched store and returns a cluster instead of any error. -/
theorem c8_counterexample :
    loadStoreA [[1], [1]] [⟨"a.pdf".data, "x".data, 0⟩]
        = Except.ok ([[1], [1]], [⟨"a.pdf".data, "x".data, 0⟩]) ∧
      ([[1], [1]] : List (List ℚ)).length ≠
        ([⟨"a.pdf".data, "x".data, 0⟩] : List MRec).length ∧
      findDuplicateClusters [[1], [1]] 1 = [[0, 1]] :=
  ⟨rfl, by decide, eval_clusters_ones_one⟩

/-- Amended C8: no `DimensionMismatchError` exists in the repository, and
loading a store for analysis is not validated: `_load_store` of
`analyze_vector_store.py` returns the embeddings and metadata as loaded and
always succeeds.  The repository's row-count/record-count checks live in the
entry points that perform them: `main` of `query_vector_store.py` aborts with
a `SystemExit` message, and `merge_vector_stores` of `vectorize_case_docs.py`
raises a `ValueError` while loading each store to merge, each exactly when
the number of embedding rows differs from the number of metadata records. -/
theorem c8_amended_size_check (e : List (List ℚ)) (md : List MRec)
    (storePath : List Char) :
    loadStoreA e md = Except.ok (e, md) ∧
      (checkStoreSizes e md =
          Except.error ("Embeddings/metadata size mismatch.".data) ↔
        e.length ≠ md.length) ∧
      (checkMergeSizes storePath e md =
          Except.error (("Embeddings and metadata length mismatch for ".data)
            ++ storePath) ↔
        e.length ≠ md.length) := by
  refine ⟨rfl, ?_, ?_⟩
  · constructor
    · intro h
      simp only [checkStoreSizes] at h
      split at h
      · next hne => exact hne
      · exact Except.noConfusion h
    · intro h
      simp only [checkStoreSizes]
      split
      · rfl
      · next hne => exact absurd h hne
  · constructor
    · intro h
      simp only [checkMergeSizes] at h
      split at h
      · next hne => exact hne
      · exact Except.noConfusion h
    · intro h
      simp only [checkMergeSizes]
      split
      · rfl
      · next hne => exact absurd h hne

/-- Witness for the amended C8 on a two-rows/zero-records store. -/
theorem c8_amended_size_check_witness :
    loadStoreA [[1], [1]] [] = Except.ok ([[1], [1]], []) ∧
      (checkStoreSizes [[1], [1]] [] =
          Except.error ("Embeddings/metadata size mismatch.".data) ↔
        ([[1], [1]] : List (List ℚ)).length ≠ ([] : List MRec).length) ∧
      (checkMergeSizes ("storeA".data) [[1], [1]] [] =
          Except.error (("Embeddings and metadata length mismatch for ".data)
            ++ ("storeA".data)) ↔
        ([[1], [1]] : List (List ℚ)).length ≠ ([] : List MRec).length) :=
  c8_amended_size_check [[1], [1]] [] ("storeA".data)
